import Mathlib

/-! Sorting server: a verification development.

The program (`Sorting-server/main.go`) is an HTTP service with two endpoints.
Both decode a JSON body into a batch of integer slices, sort every slice on a
private copy and answer with the sorted batch; `/process-single` sorts the
slices one after the other (`sortSequential`), `/process-concurrent` starts one
goroutine per slice (`sortConcurrent`).

The embedding has three layers.

* Value level: a slice is the list of its elements (a nil slice and an empty
  slice are both `[]`, the statements `len`, `range` and `copy` used by the
  program do not tell them apart).  `sortSequential` is the loop of the source.
* Memory level (`Mem`): a heap of backing arrays and slice headers pointing
  into it, so that aliasing and in-place updates are visible.  The goroutines of
  `sortConcurrent` are a small-step machine over that heap, driven by a
  schedule that names the thread taking each step.
* Request level: the two handlers, over a model of the decoder of
  `encoding/json` for the type `RequestPayload`.
-/

namespace SortingServer

/-! ## Library functions used by the sorters -/

/-- Go's `sort.Ints(x)`: documented as "Ints sorts a slice of ints in
increasing order".  With integer keys the result is fixed by that contract (a
non-decreasing permutation of a list of integers is unique, `sortInts_unique`
below), so the library routine is represented by insertion sort, the
algorithm it runs on short slices. -/
def sortInts (x : List Int) : List Int :=
  List.insertionSort (fun a b => a ≤ b) x

/-- Go's builtin `make([]int, n)`: a fresh slice of `n` zeroes. -/
def makeInts (n : Nat) : List Int :=
  List.replicate n 0

/-- Go's builtin `copy(dst, src)`: the first `min(len(dst), len(src))`
elements of `dst` are overwritten by those of `src`; the value is the new
content of `dst`. -/
def goCopy (dst src : List Int) : List Int :=
  src.take (min dst.length src.length) ++ dst.drop (min dst.length src.length)

/-! ## Value level: `sortSequential` -/

/-- One iteration of the loop body of `sortSequential` (lines 27-30) for index
`i` and element `arr`, acting on the output container `sortedArrays`. -/
def sortSequentialBody (sortedArrays : List (List Int)) (i : Nat) (arr : List Int) :
    List (List Int) :=
  let sorted := makeInts arr.length
  let sorted := goCopy sorted arr
  let sorted := sortInts sorted
  sortedArrays.set i sorted

/-- The `for i, arr := range toSort` loop of `sortSequential`, started at index
`i` with the remaining elements `rest`. -/
def sortSequentialLoop : Nat → List (List Int) → List (List Int) → List (List Int)
  | _, [], sortedArrays => sortedArrays
  | i, arr :: rest, sortedArrays =>
      sortSequentialLoop (i + 1) rest (sortSequentialBody sortedArrays i arr)

/-- The function `sortSequential` of the source (lines 24-33):
`sortedArrays := make([][]int, len(toSort))`, then the loop, then
`return sortedArrays`. -/
def sortSequential (toSort : List (List Int)) : List (List Int) :=
  sortSequentialLoop 0 toSort (List.replicate toSort.length [])

/-! ## Memory level

Every backing array is one heap object, addressed by its position in the heap.
A slice header is `none` (the nil slice) or the address of its backing array.
The headers of an input batch may repeat an address: two input sequences may
share their backing array. -/

namespace Mem

/-- The heap: backing arrays, by address. -/
abbrev Heap := List (List Int)

/-- A slice header of type `[]int`. -/
abbrev Slice := Option Nat

/-- The elements a slice header denotes in a heap. -/
def read (h : Heap) : Slice → List Int
  | none => []
  | some a => h.getD a []

/-- Overwrite the backing array of a slice. -/
def write (h : Heap) (s : Slice) (v : List Int) : Heap :=
  match s with
  | none => h
  | some a => h.set a v

/-- The statement `sorted := make([]int, n)`: a fresh backing array of `n`
zeroes is appended to the heap; the header points at it. -/
def alloc (h : Heap) (n : Nat) : Heap × Slice :=
  (h ++ [makeInts n], some h.length)

/-- The statement `copy(dst, src)`, updating the backing array of `dst`. -/
def copyInto (h : Heap) (dst src : Slice) : Heap :=
  write h dst (goCopy (read h dst) (read h src))

/-- The statement `sort.Ints(x)`, sorting the backing array of `x` in place. -/
def sortInPlace (h : Heap) (x : Slice) : Heap :=
  write h x (sortInts (read h x))

/-- One iteration of the loop body of `sortSequential` (lines 27-30) on the
heap `st.1` and the output container `st.2`. -/
def sortSequentialBody (st : Heap × List Slice) (i : Nat) (arr : Slice) : Heap × List Slice :=
  let (h, sorted) := alloc st.1 (read st.1 arr).length
  let h := copyInto h sorted arr
  let h := sortInPlace h sorted
  (h, st.2.set i sorted)

/-- The `range` loop of `sortSequential`, from index `i` on. -/
def sortSequentialLoop : Nat → List Slice → Heap × List Slice → Heap × List Slice
  | _, [], st => st
  | i, arr :: rest, st => sortSequentialLoop (i + 1) rest (sortSequentialBody st i arr)

/-- The function `sortSequential` on a heap: the final heap and the returned
container of slice headers. -/
def sortSequential (h : Heap) (toSort : List Slice) : Heap × List Slice :=
  sortSequentialLoop 0 toSort (h, List.replicate toSort.length none)

/-! ### The goroutines of `sortConcurrent` -/

/-- Program counter of one goroutine `func(i int, arr []int)` (lines 43-52).
Each constructor names the statement executed last. -/
inductive Pc
  | start      -- spawned, nothing executed yet
  | allocated  -- after `sorted := make([]int, len(arr))`
  | copied     -- after `copy(sorted, arr)`
  | sorted     -- after `sort.Ints(sorted)`
  | locked     -- after `mu.Lock()`
  | assigned   -- after `sortedArrays[i] = sorted`
  | unlocked   -- after `mu.Unlock()`
  | done       -- after the deferred `wg.Done()`
  deriving DecidableEq, Repr

/-- The local state of one goroutine: its arguments `i` and `arr`, its local
variable `sorted` and its program counter. -/
structure Goroutine where
  i : Nat
  arr : Slice
  sorted : Slice
  pc : Pc
  deriving DecidableEq, Repr

/-- The state of one call of `sortConcurrent`. -/
structure State where
  /-- the heap of backing arrays -/
  heap : Heap
  /-- the local `sortedArrays`, shared with the goroutines -/
  sortedArrays : List Slice
  /-- the counter of `wg` -/
  wg : Nat
  /-- is `mu` held -/
  mu : Bool
  /-- the index the `range` loop of the caller has reached -/
  next : Nat
  /-- the goroutines started so far, in the order of the `go` statements -/
  gs : List Goroutine
  /-- the value returned, once `return sortedArrays` has run -/
  ret : Option (List Slice)
  /-- history variable (read by no step): the assignments
  `sortedArrays[i] = sorted` made so far, as pairs (goroutine, index) -/
  writes : List (Nat × Nat)
  deriving DecidableEq, Repr

/-- A thread of the call: the caller or the `k`-th goroutine it started. -/
inductive Thread
  | main
  | unit (k : Nat)
  deriving DecidableEq, Repr

/-- The state at entry, after `sortedArrays := make([][]int, len(toSort))`. -/
def init (h : Heap) (toSort : List Slice) : State :=
  { heap := h, sortedArrays := List.replicate toSort.length none, wg := 0, mu := false,
    next := 0, gs := [], ret := none, writes := [] }

/-- One step of the caller.  Inside the loop it runs `wg.Add(1)` and the `go`
statement of the current index (the counter is read by nobody but the caller,
so the two are taken together); after the loop `wg.Wait()` lets it pass only
when the counter is zero, and it returns `sortedArrays`.  `none`: the caller is
blocked in `wg.Wait()` or has returned. -/
def stepMain (toSort : List Slice) (s : State) : Option State :=
  if s.ret.isSome then none
  else
    match toSort[s.next]? with
    | some arr =>
        some { s with wg := s.wg + 1,
                      gs := s.gs ++ [{ i := s.next, arr := arr, sorted := none, pc := Pc.start }],
                      next := s.next + 1 }
    | none => if s.wg = 0 then some { s with ret := some s.sortedArrays } else none

/-- One step of goroutine `k`.  `none`: it does not exist, has finished, is
blocked in `mu.Lock()`, or `wg.Done()` would drive the counter below zero. -/
def stepUnit (s : State) (k : Nat) : Option State :=
  match s.gs[k]? with
  | none => none
  | some g =>
    match g.pc with
    | Pc.start =>
        let (h, p) := alloc s.heap (read s.heap g.arr).length
        some { s with heap := h, gs := s.gs.set k { g with sorted := p, pc := Pc.allocated } }
    | Pc.allocated =>
        some { s with heap := copyInto s.heap g.sorted g.arr,
                      gs := s.gs.set k { g with pc := Pc.copied } }
    | Pc.copied =>
        some { s with heap := sortInPlace s.heap g.sorted,
                      gs := s.gs.set k { g with pc := Pc.sorted } }
    | Pc.sorted =>
        if s.mu then none
        else some { s with mu := true, gs := s.gs.set k { g with pc := Pc.locked } }
    | Pc.locked =>
        some { s with sortedArrays := s.sortedArrays.set g.i g.sorted,
                      writes := s.writes ++ [(k, g.i)],
                      gs := s.gs.set k { g with pc := Pc.assigned } }
    | Pc.assigned =>
        some { s with mu := false, gs := s.gs.set k { g with pc := Pc.unlocked } }
    | Pc.unlocked =>
        if s.wg = 0 then none
        else some { s with wg := s.wg - 1, gs := s.gs.set k { g with pc := Pc.done } }
    | Pc.done => none

/-- One step of the thread the scheduler picks. -/
def step (toSort : List Slice) (s : State) : Thread → Option State
  | Thread.main => stepMain toSort s
  | Thread.unit k => stepUnit s k

/-- Run a schedule: the threads take one step each in the listed order.
`none` when a listed thread cannot step. -/
def run (toSort : List Slice) : State → List Thread → Option State
  | s, [] => some s
  | s, t :: ts =>
    match step toSort s t with
    | none => none
    | some s' => run toSort s' ts

/-- The function `sortConcurrent` on a heap under a schedule: the final heap
and the returned container, when the schedule is an execution up to the
`return`. -/
def sortConcurrent (h : Heap) (toSort : List Slice) (sched : List Thread) :
    Option (Heap × List Slice) :=
  match run toSort (init h toSort) sched with
  | none => none
  | some s => s.ret.map (fun r => (s.heap, r))

/-- The states a call on heap `h` and batch `toSort` can be in. -/
inductive Reachable (h : Heap) (toSort : List Slice) : State → Prop
  | init : Reachable h toSort (init h toSort)
  | step {s s' : State} (t : Thread) :
      Reachable h toSort s → step toSort s t = some s' → Reachable h toSort s'

/-- Every non-nil header of the batch points into the heap. -/
def Valid (h : Heap) (toSort : List Slice) : Prop :=
  ∀ a, some a ∈ toSort → a < h.length

instance (h : Heap) (toSort : List Slice) : Decidable (Valid h toSort) :=
  decidable_of_iff (∀ x ∈ toSort, ∀ a, x = some a → a < h.length)
    ⟨fun H a ha => H _ ha a rfl, fun H _ hx a hxa => H a (hxa ▸ hx)⟩

/-- Two heaps agree below address `n`. -/
def AgreeBelow (n : Nat) (h h' : Heap) : Prop :=
  ∀ a, a < n → h'[a]? = h[a]?

/-- The goroutine has not yet run its deferred `wg.Done()`. -/
def Goroutine.live (g : Goroutine) : Bool :=
  match g.pc with
  | Pc.done => false
  | _ => true

/-- The goroutine is between `mu.Lock()` and `mu.Unlock()`. -/
def Goroutine.inCS (g : Goroutine) : Bool :=
  match g.pc with
  | Pc.locked | Pc.assigned => true
  | _ => false

/-- The goroutine has run `sortedArrays[i] = sorted`. -/
def Goroutine.wrote (g : Goroutine) : Bool :=
  match g.pc with
  | Pc.assigned | Pc.unlocked | Pc.done => true
  | _ => false

/-- The content the private array of a goroutine must have at each program
counter, in terms of the content `v` of its argument `arr` at entry. -/
def expected (v : List Int) : Pc → List Int
  | Pc.start => []
  | Pc.allocated => makeInts v.length
  | Pc.copied => goCopy (makeInts v.length) v
  | _ => sortInts (goCopy (makeInts v.length) v)

/-- The number of steps goroutine `g` has still to take. -/
def Goroutine.todo (g : Goroutine) : Nat :=
  match g.pc with
  | Pc.start => 7
  | Pc.allocated => 6
  | Pc.copied => 5
  | Pc.sorted => 4
  | Pc.locked => 3
  | Pc.assigned => 2
  | Pc.unlocked => 1
  | Pc.done => 0

/-- The number of steps left until the call has returned: the `return`, eight
per goroutine not yet started (the `go` statement and the seven steps of the
goroutine), and the steps the started goroutines have still to take. -/
def remaining (toSort : List Slice) (s : State) : Nat :=
  (if s.ret.isSome then 0 else 1) + 8 * (toSort.length - s.next)
    + (s.gs.map Goroutine.todo).sum

/-- The invariant of the fan-out, for a call entered on heap `h0` with batch
`toSort`. -/
structure Inv (h0 : Heap) (toSort : List Slice) (s : State) : Prop where
  /-- the heap only grows -/
  heap_len : h0.length ≤ s.heap.length
  /-- the arrays present at entry are untouched -/
  frame : AgreeBelow h0.length h0 s.heap
  /-- one goroutine per index the loop has passed -/
  gs_len : s.gs.length = s.next
  next_le : s.next ≤ toSort.length
  out_len : s.sortedArrays.length = toSort.length
  /-- goroutine `k` was started with the arguments `(k, toSort[k])` -/
  args : ∀ (k : Nat) (g : Goroutine), s.gs[k]? = some g → g.i = k ∧ toSort[k]? = some g.arr
  /-- before its `make`, the local `sorted` of a goroutine is nil -/
  fresh : ∀ (k : Nat) (g : Goroutine), s.gs[k]? = some g → g.pc = Pc.start → g.sorted = none
  /-- after its `make`, the local `sorted` of a goroutine points at an array
  allocated during the call, holding what the goroutine has computed so far -/
  priv : ∀ (k : Nat) (g : Goroutine), s.gs[k]? = some g → g.pc ≠ Pc.start →
    ∃ a, g.sorted = some a ∧ h0.length ≤ a ∧
      s.heap[a]? = some (expected (read h0 g.arr) g.pc)
  /-- no two goroutines hold the same array -/
  inj : ∀ (j k : Nat) (gj gk : Goroutine) (a : Nat), s.gs[j]? = some gj → s.gs[k]? = some gk →
    gj.sorted = some a → gk.sorted = some a → j = k
  /-- slot `k` holds the array of goroutine `k` once it has assigned it, and
  nil before -/
  slot : ∀ (k : Nat) (g : Goroutine), s.gs[k]? = some g →
    s.sortedArrays[k]? = some (if g.wrote then g.sorted else none)
  /-- the slots of the goroutines not yet started are nil -/
  slot_rest : ∀ (k : Nat), s.gs.length ≤ k → k < toSort.length → s.sortedArrays[k]? = some none
  /-- the counter of `wg` is the number of goroutines that have not finished -/
  wg_count : s.wg = s.gs.countP Goroutine.live
  /-- `mu` is held exactly when one goroutine is in the critical section -/
  mu_count : s.gs.countP Goroutine.inCS = if s.mu then 1 else 0
  /-- the history lists the assignments made: goroutine `k` at index `k` -/
  writes_mem : ∀ (u i : Nat), (u, i) ∈ s.writes ↔ (u = i ∧ ∃ g, s.gs[u]? = some g ∧ g.wrote = true)
  writes_nodup : s.writes.Nodup
  /-- the caller returns the container, after the loop, with the counter at zero -/
  returned : ∀ r, s.ret = some r → r = s.sortedArrays ∧ s.next = toSort.length ∧ s.wg = 0

/-- The headers of a batch laid out with one backing array per sequence. -/
def layout (n : Nat) : List Slice :=
  (List.range n).map some

end Mem

/-! ## Value level: `sortConcurrent` -/

/-- The function `sortConcurrent` of the source (lines 36-57) on a batch given
by value, under a schedule: the batch is laid out in a heap with one backing
array per sequence, the call runs under the schedule, and the returned slices
are read back.  `none` when the schedule is not an execution up to the
`return`. -/
def sortConcurrent (toSort : List (List Int)) (sched : List Mem.Thread) :
    Option (List (List Int)) :=
  (Mem.sortConcurrent toSort (Mem.layout toSort.length) sched).map
    (fun p => p.2.map (Mem.read p.1))

/-- The schedule in which the caller starts every goroutine before any of
them runs, and the goroutines then run to completion one after the other in
the order `order`. -/
def schedAfter (n : Nat) (order : List Nat) : List Mem.Thread :=
  List.replicate n Mem.Thread.main
    ++ (order.map (fun k => List.replicate 7 (Mem.Thread.unit k))).flatten
    ++ [Mem.Thread.main]

/-! ## Request level

The handlers call `json.NewDecoder(r.Body).Decode(&reqPayload)`.  The decoder of
`encoding/json` is represented by what it does for the target type
`RequestPayload`, as documented for `Unmarshal`: a JSON `null` sets a slice to
nil and leaves any other target untouched; a JSON value of the wrong kind for its target is a type error,
after which decoding goes on but `Decode` returns an error; object members that
name no field are skipped; a field named by no member keeps its zero value. -/

/-- The type `RequestPayload` (lines 13-15). -/
structure RequestPayload where
  ToSort : List (List Int)
  deriving DecidableEq, Repr

/-- The type `ResponsePayload` (lines 18-21). -/
structure ResponsePayload where
  SortedArrays : List (List Int)
  TimeNs : Int
  deriving DecidableEq, Repr

/-- A JSON value, as far as the decoder tells values apart when the target is
`RequestPayload`.
* `int n`: a number literal made of an optional minus sign and digits, of value
  `n`; `nonInt`: a number literal with a fraction or an exponent.
* `obj m`: an object; `m` is the value of the member whose name the decoder
  matches with the field `ToSort` (tag `to_sort`), `none` when no member does.
  Members with other names are skipped by the decoder.  Objects with several
  members of that name are outside the model. -/
inductive JSON where
  | null
  | bool (b : Bool)
  | int (n : Int)
  | nonInt
  | str (s : String)
  | arr (elems : List JSON)
  | obj (toSort : Option JSON)

/-- What the decoder finds in the request body: `invalid` when no complete JSON
value can be read from its start (syntax error, empty or truncated body),
`value j` when it starts with the JSON value `j`.  `Decode` reads one value and
does not look at what follows it. -/
inductive Body where
  | invalid
  | value (j : JSON)

/-- The value is `null`. -/
def JSON.isNull : JSON → Bool
  | JSON.null => true
  | _ => false

/-- The value is an array. -/
def JSON.isArr : JSON → Bool
  | JSON.arr _ => true
  | _ => false

/-- The value is an object. -/
def JSON.isObj : JSON → Bool
  | JSON.obj _ => true
  | _ => false

/-- The value is an integer literal that fits the 64 bits of `int`. -/
def JSON.isInt64 : JSON → Bool
  | JSON.int n => decide (-(2 : Int) ^ 63 ≤ n ∧ n < (2 : Int) ^ 63)
  | _ => false

/-- All results, when none of them is an error. -/
def collect {α : Type} : List (Option α) → Option (List α)
  | [] => some []
  | none :: _ => none
  | some a :: rest => (collect rest).map (fun l => a :: l)

/-- Decoding into an element of type `int` of a fresh slice: `null` leaves the
zero value, an integer literal must fit 64 bits, anything else is a type
error. -/
def decodeInt : JSON → Option Int
  | JSON.null => some 0
  | JSON.int n => if -(2 : Int) ^ 63 ≤ n ∧ n < (2 : Int) ^ 63 then some n else none
  | _ => none

/-- Decoding into a fresh `[]int`: `null` leaves the nil slice, an array is
decoded element by element, anything else is a type error. -/
def decodeInts : JSON → Option (List Int)
  | JSON.null => some []
  | JSON.arr elems => collect (elems.map decodeInt)
  | _ => none

/-- Decoding into a fresh `[][]int`. -/
def decodeBatch : JSON → Option (List (List Int))
  | JSON.null => some []
  | JSON.arr elems => collect (elems.map decodeInts)
  | _ => none

/-- Decoding into a fresh `RequestPayload`: `null` leaves the zero value, an
object sets `ToSort` from its member of that name if it has one, anything else
is a type error. -/
def decodePayload : JSON → Option RequestPayload
  | JSON.null => some { ToSort := [] }
  | JSON.obj none => some { ToSort := [] }
  | JSON.obj (some j) => (decodeBatch j).map (fun b => { ToSort := b })
  | _ => none

/-- The call `json.NewDecoder(r.Body).Decode(&reqPayload)` with a zero
`reqPayload`: `none` when it returns an error, otherwise the payload. -/
def jsonDecode : Body → Option RequestPayload
  | Body.invalid => none
  | Body.value j => decodePayload j

/-- The body written to the `http.ResponseWriter`: a text, or the JSON encoding
of a `ResponsePayload` (kept as the payload; `SortedArrays` and its elements
come from `make` and are never nil, so they are encoded as arrays). -/
inductive ResponseBody where
  | text (s : String)
  | json (p : ResponsePayload)
  deriving DecidableEq, Repr

/-- The response a handler has produced. -/
structure Response where
  status : Nat
  contentType : String
  body : ResponseBody
  deriving DecidableEq, Repr

/-- What a handler has done: its response, and the arguments of the calls it
made to its sorter, in order. -/
structure Outcome where
  response : Response
  sorterCalls : List (List (List Int))
  deriving DecidableEq, Repr

/-- The call `http.Error(w, msg, code)`: plain-text content type, the status
`code`, and `msg` followed by a newline. -/
def httpError (msg : String) (code : Nat) : Response :=
  { status := code, contentType := "text/plain; charset=utf-8", body := ResponseBody.text (msg ++ "\n") }

/-- The lines `w.Header().Set("Content-Type", "application/json")` and
`json.NewEncoder(w).Encode(response)`; the first write sends status 200. -/
def writeJSON (response : ResponsePayload) : Response :=
  { status := 200, contentType := "application/json", body := ResponseBody.json response }

/-- The handler `processSingleHandler` (lines 60-78).  `elapsed` is the value of
`time.Since(startTime).Nanoseconds()`. -/
def processSingleHandler (body : Body) (elapsed : Int) : Outcome :=
  match jsonDecode body with
  | none => { response := httpError "Invalid JSON payload" 400, sorterCalls := [] }
  | some reqPayload =>
    let sortedArrays := sortSequential reqPayload.ToSort
    let response : ResponsePayload := { SortedArrays := sortedArrays, TimeNs := elapsed }
    { response := writeJSON response, sorterCalls := [reqPayload.ToSort] }

/-- The handler `processConcurrentHandler` (lines 81-99), with the schedule
under which its call of `sortConcurrent` runs.  `none` when the schedule is
not an execution of that call up to its `return`. -/
def processConcurrentHandler (body : Body) (sched : List Mem.Thread) (elapsed : Int) :
    Option Outcome :=
  match jsonDecode body with
  | none => some { response := httpError "Invalid JSON payload" 400, sorterCalls := [] }
  | some reqPayload =>
    match sortConcurrent reqPayload.ToSort sched with
    | none => none
    | some sortedArrays =>
      let response : ResponsePayload := { SortedArrays := sortedArrays, TimeNs := elapsed }
      some { response := writeJSON response, sorterCalls := [reqPayload.ToSort] }

/-! ## Lemmas on the library functions -/

theorem sortInts_perm (x : List Int) : (sortInts x).Perm x :=
  List.perm_insertionSort _ x

theorem sortInts_sorted (x : List Int) : (sortInts x).Sorted (fun a b => a ≤ b) :=
  List.sorted_insertionSort _ x

theorem sortInts_length (x : List Int) : (sortInts x).length = x.length :=
  List.length_insertionSort _ x

/-- The contract of `sort.Ints` fixes its result: a non-decreasing permutation
of `x` is `sortInts x`. -/
theorem sortInts_unique (x y : List Int) (hp : y.Perm x)
    (hs : y.Sorted (fun a b => a ≤ b)) : y = sortInts x :=
  List.eq_of_perm_of_sorted (hp.trans (sortInts_perm x).symm) hs (sortInts_sorted x)

theorem sortInts_congr {x y : List Int} (hp : x.Perm y) : sortInts x = sortInts y :=
  sortInts_unique y (sortInts x) ((sortInts_perm x).trans hp) (sortInts_sorted x)

theorem sortInts_idem (x : List Int) : sortInts (sortInts x) = sortInts x :=
  sortInts_congr (sortInts_perm x)

theorem goCopy_makeInts (arr : List Int) : goCopy (makeInts arr.length) arr = arr := by
  simp [goCopy, makeInts]

/-! ## Lemmas on the value-level `sortSequential` -/

theorem sortSequentialBody_eq (out : List (List Int)) (i : Nat) (arr : List Int) :
    sortSequentialBody out i arr = out.set i (sortInts arr) := by
  simp [sortSequentialBody, goCopy_makeInts]

theorem take_succ_set {α : Type} (l : List α) (i : Nat) (v : α) (h : i < l.length) :
    (l.set i v).take (i + 1) = l.take i ++ [v] := by
  rw [List.take_succ, List.set_take, List.set_eq_of_length_le (by simp)]
  simp [List.getElem?_set, h]

theorem sortSequentialLoop_eq (rest : List (List Int)) :
    ∀ (i : Nat) (out : List (List Int)), out.length = i + rest.length →
      sortSequentialLoop i rest out = out.take i ++ rest.map sortInts := by
  induction rest with
  | nil =>
    intro i out h
    simp only [List.length_nil, Nat.add_zero] at h
    simp [sortSequentialLoop, ← h]
  | cons arr rest ih =>
    intro i out h
    simp only [List.length_cons] at h
    rw [sortSequentialLoop, sortSequentialBody_eq, ih (i + 1) _ (by simp; omega),
      take_succ_set out i _ (by omega)]
    simp

/-- The loop of `sortSequential` computes the pointwise sort of the batch. -/
theorem sortSequential_eq_map (toSort : List (List Int)) :
    sortSequential toSort = toSort.map sortInts := by
  rw [sortSequential, sortSequentialLoop_eq toSort 0 _ (by simp)]
  simp

/-! ## Lemmas on the heap -/

namespace Mem

theorem read_some (h : Heap) (a : Nat) : read h (some a) = (h[a]?).getD [] := by
  simp [read]

theorem getElem?_write (h : Heap) (a b : Nat) (v : List Int) :
    (write h (some a) v)[b]? = if a = b then (if a < h.length then some v else none) else h[b]? := by
  simp [write, List.getElem?_set]

theorem length_write (h : Heap) (x : Slice) (v : List Int) : (write h x v).length = h.length := by
  cases x <;> simp [write]

theorem length_copyInto (h : Heap) (x y : Slice) : (copyInto h x y).length = h.length :=
  length_write _ _ _

theorem length_sortInPlace (h : Heap) (x : Slice) : (sortInPlace h x).length = h.length :=
  length_write _ _ _

theorem read_of_agree {n : Nat} {h h' : Heap} (hag : AgreeBelow n h h') {x : Slice}
    (hx : ∀ a, x = some a → a < n) : read h' x = read h x := by
  cases x with
  | none => rfl
  | some a => rw [read_some, read_some, hag a (hx a rfl)]

theorem prefix_of_agree {h h' : Heap} (hag : AgreeBelow h.length h h') :
    h'.take h.length = h := by
  apply List.ext_getElem?
  intro a
  rw [List.getElem?_take]
  split
  · next hlt => exact hag a hlt
  · next hge => rw [List.getElem?_eq_none (by omega)]

end Mem

/-! ## The invariant of the fan-out -/

namespace Mem

theorem getElem?_snoc {α : Type} (l : List α) (x y : α) (k : Nat)
    (h : (l ++ [x])[k]? = some y) :
    (k < l.length ∧ l[k]? = some y) ∨ (k = l.length ∧ y = x) := by
  rw [List.getElem?_append] at h
  split at h
  · next hlt => exact Or.inl ⟨hlt, h⟩
  · next hge =>
    have hk : k - l.length = 0 := by
      by_contra hne
      rw [List.getElem?_eq_none (by simp; omega)] at h
      exact Option.noConfusion h
    rw [hk] at h
    simp at h
    exact Or.inr ⟨by omega, h.symm⟩

theorem getElem?_set_some {α : Type} (l : List α) (x y : α) (k j : Nat)
    (h : (l.set k x)[j]? = some y) :
    (j = k ∧ y = x) ∨ (j ≠ k ∧ l[j]? = some y) := by
  rw [List.getElem?_set] at h
  split at h
  · next heq =>
    split at h
    · exact Or.inl ⟨heq.symm, (Option.some.inj h).symm⟩
    · exact Option.noConfusion h
  · next hne => exact Or.inr ⟨fun e => hne e.symm, h⟩

theorem inv_init (h0 : Heap) (toSort : List Slice) : Inv h0 toSort (init h0 toSort) where
  heap_len := Nat.le_refl _
  frame := fun _ _ => rfl
  gs_len := rfl
  next_le := Nat.zero_le _
  out_len := by simp [init]
  args := by intro k g h; simp [init] at h
  fresh := by intro k g h; simp [init] at h
  priv := by intro k g h; simp [init] at h
  inj := by intro j k gj gk a h; simp [init] at h
  slot := by intro k g h; simp [init] at h
  slot_rest := by intro k _ hk; simp [init, hk]
  wg_count := rfl
  mu_count := rfl
  writes_mem := by intro u i; simp [init]
  writes_nodup := List.nodup_nil
  returned := by intro r h; simp [init] at h

theorem inv_stepMain {h0 : Heap} {toSort : List Slice} {s s' : State}
    (hinv : Inv h0 toSort s) (hstep : stepMain toSort s = some s') : Inv h0 toSort s' := by
  unfold stepMain at hstep
  split at hstep
  · exact Option.noConfusion hstep
  next hret =>
  split at hstep
  · next arr harr =>
    have hs := Option.some.inj hstep
    subst hs
    have hlt : s.next < toSort.length := by
      by_contra hge
      rw [List.getElem?_eq_none (by omega)] at harr
      exact Option.noConfusion harr
    refine
      { heap_len := hinv.heap_len, frame := hinv.frame, gs_len := ?_, next_le := hlt,
        out_len := hinv.out_len, args := ?_, fresh := ?_, priv := ?_, inj := ?_, slot := ?_,
        slot_rest := ?_, wg_count := ?_, mu_count := ?_, writes_mem := ?_,
        writes_nodup := hinv.writes_nodup, returned := ?_ }
    · simp [hinv.gs_len]
    · intro k g hk
      rcases getElem?_snoc _ _ _ _ hk with ⟨_, hk⟩ | ⟨hkl, rfl⟩
      · exact hinv.args k g hk
      · simp only
        rw [hkl, hinv.gs_len]
        exact ⟨rfl, harr⟩
    · intro k g hk hpc
      rcases getElem?_snoc _ _ _ _ hk with ⟨_, hk⟩ | ⟨_, rfl⟩
      · exact hinv.fresh k g hk hpc
      · rfl
    · intro k g hk hpc
      rcases getElem?_snoc _ _ _ _ hk with ⟨_, hk⟩ | ⟨_, rfl⟩
      · exact hinv.priv k g hk hpc
      · exact absurd rfl hpc
    · intro j k gj gk a hj hk haj hak
      rcases getElem?_snoc _ _ _ _ hj with ⟨_, hj⟩ | ⟨_, rfl⟩
      · rcases getElem?_snoc _ _ _ _ hk with ⟨_, hk⟩ | ⟨_, rfl⟩
        · exact hinv.inj j k gj gk a hj hk haj hak
        · exact Option.noConfusion hak
      · exact Option.noConfusion haj
    · intro k g hk
      rcases getElem?_snoc _ _ _ _ hk with ⟨_, hk⟩ | ⟨hkl, rfl⟩
      · exact hinv.slot k g hk
      · simp only [Goroutine.wrote]
        exact hinv.slot_rest k (by omega) (by rw [hkl, hinv.gs_len]; exact hlt)
    · intro k hk hkn
      simp only [List.length_append, List.length_singleton] at hk
      exact hinv.slot_rest k (by omega) hkn
    · simp [List.countP_append, Goroutine.live, hinv.wg_count]
    · simp [List.countP_append, Goroutine.inCS, hinv.mu_count]
    · intro u i
      rw [hinv.writes_mem u i]
      constructor
      · rintro ⟨hui, g, hg, hw⟩
        refine ⟨hui, g, ?_, hw⟩
        have hlt : u < s.gs.length := by
          by_contra hge
          rw [List.getElem?_eq_none (by omega)] at hg
          exact Option.noConfusion hg
        simp only
        rw [List.getElem?_append_left hlt]
        exact hg
      · rintro ⟨hui, g, hg, hw⟩
        rcases getElem?_snoc _ _ _ _ hg with ⟨_, hg⟩ | ⟨_, rfl⟩
        · exact ⟨hui, g, hg, hw⟩
        · simp [Goroutine.wrote] at hw
    · intro r hr
      simp only at hr
      rw [hr] at hret
      simp at hret
  · next hnone =>
    split at hstep
    · next hwg =>
      have hs := Option.some.inj hstep
      subst hs
      refine
        { heap_len := hinv.heap_len, frame := hinv.frame, gs_len := hinv.gs_len,
          next_le := hinv.next_le, out_len := hinv.out_len, args := hinv.args,
          fresh := hinv.fresh, priv := hinv.priv, inj := hinv.inj, slot := hinv.slot,
          slot_rest := hinv.slot_rest, wg_count := hinv.wg_count, mu_count := hinv.mu_count,
          writes_mem := hinv.writes_mem, writes_nodup := hinv.writes_nodup, returned := ?_ }
      intro r hr
      simp only at hr
      have hge : toSort.length ≤ s.next := by
        by_contra hlt
        rw [List.getElem?_eq_getElem (by omega)] at hnone
        exact Option.noConfusion hnone
      exact ⟨(Option.some.inj hr).symm, Nat.le_antisymm hinv.next_le hge, hwg⟩
    · exact Option.noConfusion hstep

theorem lt_length_of_getElem? {α : Type} {l : List α} {k : Nat} {x : α}
    (h : l[k]? = some x) : k < l.length := by
  by_contra hge
  rw [List.getElem?_eq_none (by omega)] at h
  exact Option.noConfusion h

theorem getElem_of_getElem? {α : Type} {l : List α} {k : Nat} {x : α}
    (h : l[k]? = some x) (hlt : k < l.length) : l[k] = x := by
  rw [List.getElem?_eq_getElem hlt] at h
  exact Option.some.inj h

theorem countP_pos_of_getElem? {α : Type} (p : α → Bool) {l : List α} {k : Nat} {x : α}
    (h : l[k]? = some x) (hp : p x = true) : 0 < l.countP p :=
  List.countP_pos_iff.2 ⟨x, List.getElem?_mem h, hp⟩

theorem countP_set_of_getElem? {α : Type} (p : α → Bool) {l : List α} {k : Nat} {x : α}
    (h : l[k]? = some x) (y : α) :
    (l.set k y).countP p + (if p x then 1 else 0) = l.countP p + (if p y then 1 else 0) := by
  have hlt := lt_length_of_getElem? h
  rw [List.countP_set p l k y hlt, getElem_of_getElem? h hlt]
  by_cases hp : p x = true
  · have := countP_pos_of_getElem? p h hp
    simp only [hp, if_true]
    omega
  · simp [hp]

/-- Preservation of the invariant by a step of goroutine `k` that replaces its
local state `g` by `g'`, stated once for the seven statements. -/
theorem inv_update {h0 : Heap} {toSort : List Slice} {s s' : State} {k : Nat}
    {g g' : Goroutine} (hinv : Inv h0 toSort s) (hg : s.gs[k]? = some g)
    (hgs : s'.gs = s.gs.set k g') (hi : g'.i = g.i) (harr : g'.arr = g.arr)
    (hnext : s'.next = s.next) (hret : s'.ret = s.ret)
    (hlive : g.live = true) (hnstart : g'.pc ≠ Pc.start)
    (hmono : g.wrote = true → g'.wrote = true)
    (hlen : s.heap.length ≤ s'.heap.length)
    (hframe : ∀ a v, s.heap[a]? = some v → g'.sorted ≠ some a → s'.heap[a]? = some v)
    (hown : g'.sorted = g.sorted ∨ (g.sorted = none ∧ g'.sorted = some s.heap.length))
    (hpriv : ∃ a, g'.sorted = some a ∧ h0.length ≤ a ∧
      s'.heap[a]? = some (expected (read h0 g.arr) g'.pc))
    (houtlen : s'.sortedArrays.length = s.sortedArrays.length)
    (hout : ∀ j, j ≠ k → s'.sortedArrays[j]? = s.sortedArrays[j]?)
    (hslot : s'.sortedArrays[k]? = some (if g'.wrote then g'.sorted else none))
    (hwg : s'.wg + 1 = s.wg + (if g'.live then 1 else 0))
    (hmu : s'.mu = if g'.inCS then true else if g.inCS then false else s.mu)
    (hlock : g'.inCS = true → g.inCS = false → s.mu = false)
    (hwrites : s'.writes = if g.wrote then s.writes else
      if g'.wrote then s.writes ++ [(k, g.i)] else s.writes) :
    Inv h0 toSort s' := by
  have hklt := lt_length_of_getElem? hg
  have hgk : g.i = k := (hinv.args k g hg).1
  have hlook : ∀ j gj, s'.gs[j]? = some gj → (j = k ∧ gj = g') ∨ (j ≠ k ∧ s.gs[j]? = some gj) := by
    intro j gj hj
    rw [hgs] at hj
    exact getElem?_set_some _ _ _ _ _ hj
  have hk' : s'.gs[k]? = some g' := by
    rw [hgs, List.getElem?_set]
    simp [hklt]
  have hother : ∀ j, j ≠ k → s'.gs[j]? = s.gs[j]? := by
    intro j hj
    rw [hgs, List.getElem?_set_ne (fun e => hj e.symm)]
  have hfar : ∀ j gj a, j ≠ k → s.gs[j]? = some gj → gj.sorted = some a →
      g'.sorted ≠ some a := by
    intro j gj a hjk hj ha hg'
    rcases hown with h1 | ⟨_, h2⟩
    · exact hjk (hinv.inj j k gj g a hj hg ha (h1 ▸ hg'))
    · have hpc : gj.pc ≠ Pc.start := by
        intro hpc
        rw [hinv.fresh j gj hj hpc] at ha
        exact Option.noConfusion ha
      obtain ⟨b, hb, _, hb2⟩ := hinv.priv j gj hj hpc
      rw [ha] at hb
      have hba : a = b := Option.some.inj hb
      have := lt_length_of_getElem? hb2
      rw [h2] at hg'
      have := Option.some.inj hg'
      omega
  refine
    { heap_len := Nat.le_trans hinv.heap_len hlen, frame := ?_, gs_len := ?_, next_le := ?_,
      out_len := ?_, args := ?_, fresh := ?_, priv := ?_, inj := ?_, slot := ?_,
      slot_rest := ?_, wg_count := ?_, mu_count := ?_, writes_mem := ?_,
      writes_nodup := ?_, returned := ?_ }
  · -- frame
    intro a ha
    have hold := hinv.frame a ha
    have hsome : s.heap[a]? = some h0[a] := by
      rw [hold, List.getElem?_eq_getElem ha]
    rw [hframe a _ hsome, List.getElem?_eq_getElem ha]
    intro hcon
    obtain ⟨b, hb, hb1, _⟩ := hpriv
    rw [hcon] at hb
    have := Option.some.inj hb
    omega
  · rw [hgs, hnext, List.length_set]; exact hinv.gs_len
  · rw [hnext]; exact hinv.next_le
  · rw [houtlen]; exact hinv.out_len
  · -- args
    intro j gj hj
    rcases hlook j gj hj with ⟨rfl, rfl⟩ | ⟨_, hj⟩
    · rw [hi, harr]; exact hinv.args j g hg
    · exact hinv.args j gj hj
  · -- fresh
    intro j gj hj hpc
    rcases hlook j gj hj with ⟨rfl, rfl⟩ | ⟨_, hj⟩
    · exact absurd hpc hnstart
    · exact hinv.fresh j gj hj hpc
  · -- priv
    intro j gj hj hpc
    rcases hlook j gj hj with ⟨rfl, rfl⟩ | ⟨hjk, hj⟩
    · rw [harr]; exact hpriv
    · obtain ⟨a, ha, ha1, ha2⟩ := hinv.priv j gj hj hpc
      exact ⟨a, ha, ha1, hframe a _ ha2 (hfar j gj a hjk hj ha)⟩
  · -- inj
    intro i j gi gj a hi' hj' hai haj
    rcases hlook i gi hi' with ⟨rfl, rfl⟩ | ⟨hik, hi'⟩
    · rcases hlook j gj hj' with ⟨rfl, rfl⟩ | ⟨hjk, hj'⟩
      · rfl
      · exact absurd hai (hfar j gj a hjk hj' haj)
    · rcases hlook j gj hj' with ⟨rfl, rfl⟩ | ⟨hjk, hj'⟩
      · exact absurd haj (hfar i gi a hik hi' hai)
      · exact hinv.inj i j gi gj a hi' hj' hai haj
  · -- slot
    intro j gj hj
    rcases hlook j gj hj with ⟨rfl, rfl⟩ | ⟨hjk, hj⟩
    · exact hslot
    · rw [hout j hjk]; exact hinv.slot j gj hj
  · -- slot_rest
    intro j hj hjn
    rw [hgs, List.length_set] at hj
    rw [hout j (by omega)]
    exact hinv.slot_rest j hj hjn
  · -- wg_count
    have hc := countP_set_of_getElem? Goroutine.live hg g'
    rw [hlive] at hc
    simp only [if_true] at hc
    have := hinv.wg_count
    rw [hgs]
    omega
  · -- mu_count
    have hc := countP_set_of_getElem? Goroutine.inCS hg g'
    have hm := hinv.mu_count
    have hle : (if g.inCS = true then 1 else 0) ≤ s.gs.countP Goroutine.inCS := by
      by_cases h2 : g.inCS = true
      · simpa [h2] using countP_pos_of_getElem? Goroutine.inCS hg h2
      · simp [h2]
    rw [hgs, hmu]
    cases h1 : g'.inCS <;> cases h2 : g.inCS <;> cases h3 : s.mu <;>
      simp only [h1, h2, h3, Bool.false_eq_true, if_true, if_false] at hc hm hle ⊢ <;>
      first
        | omega
        | (have hl := hlock h1 h2; rw [h3] at hl; exact Bool.noConfusion hl)
  · -- writes_mem
    intro u i
    by_cases huk : u = k
    · subst huk
      have hold := hinv.writes_mem u i
      rw [hg] at hold
      rw [hk', hwrites]
      by_cases hw : g.wrote = true
      · have hw' := hmono hw
        simp only [hw, if_true]
        rw [hold]
        simp [hw, hw']
      · have hwf : g.wrote = false := by simpa using hw
        by_cases hw' : g'.wrote = true
        · simp only [hwf, hw', if_true, Bool.false_eq_true, if_false, List.mem_append,
            List.mem_singleton, Prod.mk.injEq, true_and]
          rw [hold, hgk]
          simp [hwf, hw']
          exact eq_comm
        · have hwf' : g'.wrote = false := by simpa using hw'
          simp only [hwf, hwf', Bool.false_eq_true, if_false]
          rw [hold]
          simp [hwf, hwf']
    · have hmem : (u, i) ∈ s'.writes ↔ (u, i) ∈ s.writes := by
        rw [hwrites]
        split
        · rfl
        · split
          · simp only [List.mem_append, List.mem_singleton, Prod.mk.injEq]
            constructor
            · rintro (h | ⟨h, _⟩)
              · exact h
              · exact absurd h huk
            · exact Or.inl
          · rfl
      rw [hmem, hother u huk]
      exact hinv.writes_mem u i
  · -- writes_nodup
    rw [hwrites]
    split
    · exact hinv.writes_nodup
    · next hw =>
      split
      · rw [List.nodup_append]
        refine ⟨hinv.writes_nodup, List.nodup_singleton _, ?_⟩
        intro x hx hx'
        rw [List.mem_singleton] at hx'
        subst hx'
        have := ((hinv.writes_mem k g.i).1 hx).2
        rw [hg] at this
        obtain ⟨g1, hg1, hw1⟩ := this
        rw [← Option.some.inj hg1] at hw1
        exact hw hw1
      · exact hinv.writes_nodup
  · -- returned
    intro r hr
    rw [hret] at hr
    have h0 := (hinv.returned r hr).2.2
    have := countP_pos_of_getElem? Goroutine.live hg hlive
    have := hinv.wg_count
    omega

theorem read_stable {h0 : Heap} {toSort : List Slice} {s : State} {k : Nat} {g : Goroutine}
    (hv : Valid h0 toSort) (hinv : Inv h0 toSort s) (hg : s.gs[k]? = some g) :
    read s.heap g.arr = read h0 g.arr := by
  apply read_of_agree hinv.frame
  intro a ha
  apply hv
  rw [← ha]
  exact List.getElem?_mem (hinv.args k g hg).2

theorem mu_of_inCS {h0 : Heap} {toSort : List Slice} {s : State} {k : Nat} {g : Goroutine}
    (hinv : Inv h0 toSort s) (hg : s.gs[k]? = some g) (hcs : g.inCS = true) : s.mu = true := by
  have hpos := countP_pos_of_getElem? Goroutine.inCS hg hcs
  have hm := hinv.mu_count
  cases hmu : s.mu with
  | true => rfl
  | false =>
    rw [hmu] at hm
    simp only [Bool.false_eq_true, if_false] at hm
    omega

theorem inv_stepUnit {h0 : Heap} {toSort : List Slice} {s s' : State} {k : Nat}
    (hv : Valid h0 toSort) (hinv : Inv h0 toSort s) (hstep : stepUnit s k = some s') :
    Inv h0 toSort s' := by
  unfold stepUnit at hstep
  cases hg : s.gs[k]? with
  | none => rw [hg] at hstep; exact Option.noConfusion hstep
  | some g =>
    rw [hg] at hstep
    simp only at hstep
    have hklt := lt_length_of_getElem? hg
    have hkout : k < s.sortedArrays.length := by
      have h1 := hinv.gs_len
      have h2 := hinv.next_le
      have h3 := hinv.out_len
      omega
    have hgk : g.i = k := (hinv.args k g hg).1
    have hsl := hinv.slot k g hg
    cases hpc : g.pc with
    | start =>
      rw [hpc] at hstep
      simp only [alloc] at hstep
      have hs := Option.some.inj hstep
      subst hs
      have hfr := hinv.fresh k g hg hpc
      refine inv_update hinv hg rfl rfl rfl rfl rfl (by simp [Goroutine.live, hpc])
        (by simp) (by simp [Goroutine.wrote, hpc]) (by simp) ?_ (Or.inr ⟨hfr, rfl⟩) ?_ rfl
        (fun _ _ => rfl) ?_ (by simp [Goroutine.live]) (by simp [Goroutine.inCS, hpc])
        (by simp [Goroutine.inCS]) (by simp [Goroutine.wrote, hpc])
      · intro a v ha _
        simp only
        rw [List.getElem?_append_left (lt_length_of_getElem? ha)]
        exact ha
      · refine ⟨s.heap.length, rfl, hinv.heap_len, ?_⟩
        simp [expected, read_stable hv hinv hg]
      · simpa [Goroutine.wrote, hpc] using hsl
    | allocated =>
      rw [hpc] at hstep
      have hs := Option.some.inj hstep
      subst hs
      obtain ⟨a, ha, ha1, ha2⟩ := hinv.priv k g hg (by simp [hpc])
      have halt := lt_length_of_getElem? ha2
      refine inv_update hinv hg rfl rfl rfl rfl rfl (by simp [Goroutine.live, hpc])
        (by simp) (by simp [Goroutine.wrote, hpc]) (by simp [length_copyInto]) ?_ (Or.inl rfl)
        ?_ rfl (fun _ _ => rfl) ?_ (by simp [Goroutine.live]) (by simp [Goroutine.inCS, hpc])
        (by simp [Goroutine.inCS]) (by simp [Goroutine.wrote, hpc])
      · intro b v hb hne
        simp only [ha, copyInto] at hne ⊢
        rw [getElem?_write, if_neg (fun e => hne (by rw [e]))]
        exact hb
      · refine ⟨a, ha, ha1, ?_⟩
        simp only [ha, copyInto]
        rw [getElem?_write, if_pos rfl, if_pos halt, read_some, ha2, read_stable hv hinv hg]
        simp [expected, hpc]
      · simpa [Goroutine.wrote, hpc] using hsl
    | copied =>
      rw [hpc] at hstep
      have hs := Option.some.inj hstep
      subst hs
      obtain ⟨a, ha, ha1, ha2⟩ := hinv.priv k g hg (by simp [hpc])
      have halt := lt_length_of_getElem? ha2
      refine inv_update hinv hg rfl rfl rfl rfl rfl (by simp [Goroutine.live, hpc])
        (by simp) (by simp [Goroutine.wrote, hpc]) (by simp [length_sortInPlace]) ?_ (Or.inl rfl)
        ?_ rfl (fun _ _ => rfl) ?_ (by simp [Goroutine.live]) (by simp [Goroutine.inCS, hpc])
        (by simp [Goroutine.inCS]) (by simp [Goroutine.wrote, hpc])
      · intro b v hb hne
        simp only [ha, sortInPlace] at hne ⊢
        rw [getElem?_write, if_neg (fun e => hne (by rw [e]))]
        exact hb
      · refine ⟨a, ha, ha1, ?_⟩
        simp only [ha, sortInPlace]
        rw [getElem?_write, if_pos rfl, if_pos halt, read_some, ha2]
        simp [expected, hpc]
      · simpa [Goroutine.wrote, hpc] using hsl
    | sorted =>
      rw [hpc] at hstep
      simp only at hstep
      split at hstep
      · exact Option.noConfusion hstep
      next hmu =>
      have hs := Option.some.inj hstep
      subst hs
      obtain ⟨a, ha, ha1, ha2⟩ := hinv.priv k g hg (by simp [hpc])
      refine inv_update hinv hg rfl rfl rfl rfl rfl (by simp [Goroutine.live, hpc])
        (by simp) (by simp [Goroutine.wrote, hpc]) (Nat.le_refl _) (fun _ _ hb _ => hb)
        (Or.inl rfl) ⟨a, ha, ha1, by simpa [expected, hpc] using ha2⟩ rfl (fun _ _ => rfl) ?_
        (by simp [Goroutine.live]) (by simp [Goroutine.inCS]) (fun _ _ => by simpa using hmu)
        (by simp [Goroutine.wrote, hpc])
      simpa [Goroutine.wrote, hpc] using hsl
    | locked =>
      rw [hpc] at hstep
      have hs := Option.some.inj hstep
      subst hs
      obtain ⟨a, ha, ha1, ha2⟩ := hinv.priv k g hg (by simp [hpc])
      refine inv_update hinv hg rfl rfl rfl rfl rfl (by simp [Goroutine.live, hpc])
        (by simp) (by simp [Goroutine.wrote]) (Nat.le_refl _) (fun _ _ hb _ => hb)
        (Or.inl rfl) ⟨a, ha, ha1, by simpa [expected, hpc] using ha2⟩ (by simp) ?_ ?_
        (by simp [Goroutine.live])
        (by simpa [Goroutine.inCS] using mu_of_inCS hinv hg (by simp [Goroutine.inCS, hpc]))
        (by simp [Goroutine.inCS, hpc]) (by simp [Goroutine.wrote, hpc])
      · intro j hj
        simp only
        rw [hgk, List.getElem?_set_ne (fun e => hj e.symm)]
      · simp only [Goroutine.wrote, if_true]
        rw [hgk, List.getElem?_set, if_pos rfl, if_pos hkout]
    | assigned =>
      rw [hpc] at hstep
      have hs := Option.some.inj hstep
      subst hs
      obtain ⟨a, ha, ha1, ha2⟩ := hinv.priv k g hg (by simp [hpc])
      refine inv_update hinv hg rfl rfl rfl rfl rfl (by simp [Goroutine.live, hpc])
        (by simp) (by simp [Goroutine.wrote]) (Nat.le_refl _) (fun _ _ hb _ => hb)
        (Or.inl rfl) ⟨a, ha, ha1, by simpa [expected, hpc] using ha2⟩ rfl (fun _ _ => rfl) ?_
        (by simp [Goroutine.live]) (by simp [Goroutine.inCS, hpc]) (by simp [Goroutine.inCS])
        (by simp [Goroutine.wrote, hpc])
      simpa [Goroutine.wrote, hpc] using hsl
    | unlocked =>
      rw [hpc] at hstep
      simp only at hstep
      split at hstep
      · exact Option.noConfusion hstep
      next hwg =>
      have hs := Option.some.inj hstep
      subst hs
      obtain ⟨a, ha, ha1, ha2⟩ := hinv.priv k g hg (by simp [hpc])
      refine inv_update hinv hg rfl rfl rfl rfl rfl (by simp [Goroutine.live, hpc])
        (by simp) (by simp [Goroutine.wrote]) (Nat.le_refl _) (fun _ _ hb _ => hb)
        (Or.inl rfl) ⟨a, ha, ha1, by simpa [expected, hpc] using ha2⟩ rfl (fun _ _ => rfl) ?_
        (by simp [Goroutine.live]; omega) (by simp [Goroutine.inCS, hpc])
        (by simp [Goroutine.inCS]) (by simp [Goroutine.wrote, hpc])
      simpa [Goroutine.wrote, hpc] using hsl
    | done =>
      rw [hpc] at hstep
      exact Option.noConfusion hstep

theorem inv_step {h0 : Heap} {toSort : List Slice} {s s' : State} {t : Thread}
    (hv : Valid h0 toSort) (hinv : Inv h0 toSort s) (hstep : step toSort s t = some s') :
    Inv h0 toSort s' := by
  cases t with
  | main => exact inv_stepMain hinv hstep
  | unit k => exact inv_stepUnit hv hinv hstep

/-- Every reachable state satisfies the invariant. -/
theorem inv_of_reachable {h0 : Heap} {toSort : List Slice} {s : State}
    (hv : Valid h0 toSort) (hr : Reachable h0 toSort s) : Inv h0 toSort s := by
  induction hr with
  | init => exact inv_init h0 toSort
  | step t _ hstep ih => exact inv_step hv ih hstep

theorem reachable_run {h0 : Heap} {toSort : List Slice} (sched : List Thread) :
    ∀ {s s' : State}, Reachable h0 toSort s → run toSort s sched = some s' →
      Reachable h0 toSort s' := by
  induction sched with
  | nil =>
    intro s s' hr h
    simp only [run] at h
    exact (Option.some.inj h) ▸ hr
  | cons t ts ih =>
    intro s s' hr h
    simp only [run] at h
    split at h
    · exact Option.noConfusion h
    · next s1 hs1 => exact ih (Reachable.step t hr hs1) h

theorem run_of_reachable {h0 : Heap} {toSort : List Slice} {s : State}
    (hr : Reachable h0 toSort s) : ∃ sched, run toSort (init h0 toSort) sched = some s := by
  induction hr with
  | init => exact ⟨[], rfl⟩
  | @step s1 s2 t _ hstep ih =>
    obtain ⟨sched, hs⟩ := ih
    refine ⟨sched ++ [t], ?_⟩
    have happ : ∀ (l : List Thread) (a b : State), run toSort a l = some b →
        run toSort a (l ++ [t]) = run toSort b [t] := by
      intro l
      induction l with
      | nil => intro a b h; simp only [run] at h; rw [Option.some.inj h]; rfl
      | cons x xs ihx =>
        intro a b h
        rw [List.cons_append]
        simp only [run] at h
        rw [run]
        split at h
        · exact Option.noConfusion h
        · next a1 ha1 => exact ihx a1 b h
    rw [happ sched _ _ hs]
    simp [run, hstep]

theorem expected_done (v : List Int) (pc : Pc) (h : pc ≠ Pc.start) (h1 : pc ≠ Pc.allocated)
    (h2 : pc ≠ Pc.copied) : expected v pc = sortInts v := by
  cases pc <;> simp_all [expected, goCopy_makeInts]

/-- A slot that has been assigned holds the sorted copy of the input of its
index. -/
theorem slot_value {h0 : Heap} {toSort : List Slice} {s : State} {k : Nat} {g : Goroutine}
    (hinv : Inv h0 toSort s) (hg : s.gs[k]? = some g) (hw : g.wrote = true) :
    ∃ x a, toSort[k]? = some x ∧ s.sortedArrays[k]? = some (some a) ∧ h0.length ≤ a ∧
      read s.heap (some a) = sortInts (read h0 x) := by
  have hsl := hinv.slot k g hg
  rw [hw] at hsl
  have hpc : g.pc ≠ Pc.start ∧ g.pc ≠ Pc.allocated ∧ g.pc ≠ Pc.copied := by
    cases hp : g.pc <;> simp [Goroutine.wrote, hp] at hw <;> simp
  obtain ⟨a, ha, ha1, ha2⟩ := hinv.priv k g hg hpc.1
  refine ⟨g.arr, a, (hinv.args k g hg).2, ?_, ha1, ?_⟩
  · rw [hsl, ha]; rfl
  · rw [read_some, ha2, expected_done _ _ hpc.1 hpc.2.1 hpc.2.2]
    rfl

/-- At the `return` every goroutine has finished. -/
theorem all_done {h0 : Heap} {toSort : List Slice} {s : State} {r : List Slice}
    (hinv : Inv h0 toSort s) (hret : s.ret = some r) :
    s.gs.length = toSort.length ∧
      ∀ (k : Nat) (g : Goroutine), s.gs[k]? = some g → g.pc = Pc.done := by
  obtain ⟨_, hn, hwg⟩ := hinv.returned r hret
  refine ⟨by rw [hinv.gs_len, hn], ?_⟩
  intro k g hg
  by_contra hpc
  have hlive : g.live = true := by
    cases hp : g.pc <;> simp [Goroutine.live, hp] at hpc ⊢
  have := countP_pos_of_getElem? Goroutine.live hg hlive
  have := hinv.wg_count
  omega

/-- The value returned: slot `k` points at an array allocated during the call
that holds the sorted content of `toSort[k]`. -/
theorem returned_value {h0 : Heap} {toSort : List Slice} {s : State} {r : List Slice}
    (hinv : Inv h0 toSort s) (hret : s.ret = some r) :
    r.map (read s.heap) = toSort.map (fun x => sortInts (read h0 x)) := by
  obtain ⟨hlen, hdone⟩ := all_done hinv hret
  obtain ⟨hr, _, _⟩ := hinv.returned r hret
  subst hr
  apply List.ext_getElem?
  intro k
  rw [List.getElem?_map, List.getElem?_map]
  by_cases hk : k < toSort.length
  · have hkg : k < s.gs.length := by omega
    have hg : s.gs[k]? = some s.gs[k] := List.getElem?_eq_getElem hkg
    have hw : s.gs[k].wrote = true := by
      have hd := hdone k _ hg
      simp only [Goroutine.wrote, hd]
    obtain ⟨x, a, hx, hs, _, hrd⟩ := slot_value hinv hg hw
    rw [hx, hs]
    simp [hrd]
  · have hol := hinv.out_len
    rw [List.getElem?_eq_none (by omega), List.getElem?_eq_none (by omega)]
    rfl

/-! ## Progress and termination of the fan-out -/

theorem sum_map_set {α : Type} (f : α → Nat) :
    ∀ (l : List α) (k : Nat) (x y : α), l[k]? = some x →
      ((l.set k y).map f).sum + f x = (l.map f).sum + f y := by
  intro l
  induction l with
  | nil => intro k x y h; simp at h
  | cons a l ih =>
    intro k x y h
    cases k with
    | zero =>
      simp only [List.getElem?_cons_zero, Option.some.injEq] at h
      subst h
      simp only [List.set_cons_zero, List.map_cons, List.sum_cons]
      omega
    | succ k =>
      simp only [List.getElem?_cons_succ] at h
      have := ih k x y h
      simp only [List.set_cons_succ, List.map_cons, List.sum_cons]
      omega

/-- A goroutine that has not finished can take its next step, unless it waits
for `mu`; in particular `wg.Done()` never finds the counter at zero. -/
theorem unit_enabled {h0 : Heap} {toSort : List Slice} {s : State} {k : Nat} {g : Goroutine}
    (hinv : Inv h0 toSort s) (hg : s.gs[k]? = some g) (hlive : g.live = true)
    (hmu : g.pc = Pc.sorted → s.mu = false) : ∃ s', stepUnit s k = some s' := by
  have hpos := countP_pos_of_getElem? Goroutine.live hg hlive
  have hwg : s.wg ≠ 0 := by
    have := hinv.wg_count
    omega
  unfold stepUnit
  rw [hg]
  simp only
  cases hpc : g.pc with
  | sorted => simp [hmu hpc]
  | unlocked => simp [hwg]
  | done => simp [Goroutine.live, hpc] at hlive
  | _ => simp [alloc]

/-- Every step brings the call one step closer to its `return`. -/
theorem remaining_step {toSort : List Slice} {s s' : State} {t : Thread}
    (hstep : step toSort s t = some s') : remaining toSort s' + 1 = remaining toSort s := by
  cases t with
  | main =>
    simp only [step, stepMain] at hstep
    split at hstep
    · exact Option.noConfusion hstep
    next hret =>
    split at hstep
    · next arr harr =>
      have hlt := lt_length_of_getElem? harr
      have hs := Option.some.inj hstep
      subst hs
      simp only [remaining, hret, List.map_append, List.sum_append, List.map_cons, List.map_nil,
        List.sum_cons, List.sum_nil, Goroutine.todo, if_false]
      omega
    · split at hstep
      · have hs := Option.some.inj hstep
        subst hs
        simp only [remaining, hret]
        simp
        omega
      · exact Option.noConfusion hstep
  | unit k =>
    simp only [step, stepUnit] at hstep
    cases hg : s.gs[k]? with
    | none => rw [hg] at hstep; exact Option.noConfusion hstep
    | some g =>
      rw [hg] at hstep
      simp only at hstep
      have key : ∀ (g' : Goroutine) (s1 : State), s1.gs = s.gs.set k g' → s1.ret = s.ret →
          s1.next = s.next → g'.todo + 1 = g.todo →
          remaining toSort s1 + 1 = remaining toSort s := by
        intro g' s1 h1 h2 h3 h4
        have := sum_map_set Goroutine.todo s.gs k g g' hg
        simp only [remaining, h1, h2, h3]
        omega
      cases hpc : g.pc <;> rw [hpc] at hstep <;> simp only [alloc] at hstep
      case sorted =>
        split at hstep
        · exact Option.noConfusion hstep
        · have hs := Option.some.inj hstep
          subst hs
          exact key _ _ rfl rfl rfl (by simp [Goroutine.todo, hpc])
      case unlocked =>
        split at hstep
        · exact Option.noConfusion hstep
        · have hs := Option.some.inj hstep
          subst hs
          exact key _ _ rfl rfl rfl (by simp [Goroutine.todo, hpc])
      case done => exact Option.noConfusion hstep
      all_goals
        have hs := Option.some.inj hstep
        subst hs
        exact key _ _ rfl rfl rfl (by simp [Goroutine.todo, hpc])

theorem remaining_init (h0 : Heap) (toSort : List Slice) :
    remaining toSort (init h0 toSort) = 8 * toSort.length + 1 := by
  simp [remaining, init]
  omega

/-- A schedule that can be run has used up as many steps as its length. -/
theorem remaining_run {toSort : List Slice} (sched : List Thread) :
    ∀ {s s' : State}, run toSort s sched = some s' →
      remaining toSort s' + sched.length = remaining toSort s := by
  induction sched with
  | nil =>
    intro s s' h
    simp only [run] at h
    rw [Option.some.inj h]
    rfl
  | cons t ts ih =>
    intro s s' h
    simp only [run] at h
    split at h
    · exact Option.noConfusion h
    · next s1 hs1 =>
      have h1 := remaining_step hs1
      have h2 := ih h
      simp only [List.length_cons]
      omega

/-- No deadlock: as long as the caller has not returned, some thread can
step. -/
theorem progress {h0 : Heap} {toSort : List Slice} {s : State}
    (hinv : Inv h0 toSort s) (hret : s.ret = none) : ∃ t s', step toSort s t = some s' := by
  cases harr : toSort[s.next]? with
  | some arr =>
    exact ⟨Thread.main, _, by simp only [step, stepMain, hret, harr]; rfl⟩
  | none =>
    by_cases hwg : s.wg = 0
    · exact ⟨Thread.main, _, by simp only [step, stepMain, hret, harr, hwg]; rfl⟩
    · have hpos : 0 < s.gs.countP Goroutine.live := by
        have := hinv.wg_count
        omega
      cases hmu : s.mu with
      | false =>
        obtain ⟨g, hgm, hlive⟩ := List.countP_pos_iff.1 hpos
        obtain ⟨k, hk⟩ := List.mem_iff_getElem?.1 hgm
        obtain ⟨s', hs'⟩ := unit_enabled hinv hk hlive (fun _ => hmu)
        exact ⟨Thread.unit k, s', hs'⟩
      | true =>
        have hcs : 0 < s.gs.countP Goroutine.inCS := by
          rw [hinv.mu_count, hmu]
          simp
        obtain ⟨g, hgm, hin⟩ := List.countP_pos_iff.1 hcs
        obtain ⟨k, hk⟩ := List.mem_iff_getElem?.1 hgm
        have hlive : g.live = true := by
          cases hp : g.pc <;> simp [Goroutine.inCS, Goroutine.live, hp] at hin ⊢
        have hns : g.pc = Pc.sorted → s.mu = false := by
          intro hp
          simp [Goroutine.inCS, hp] at hin
        obtain ⟨s', hs'⟩ := unit_enabled hinv hk hlive hns
        exact ⟨Thread.unit k, s', hs'⟩

/-! ## The sequential sorter on the heap -/

theorem read_append_self (h : Heap) (z : List Int) : read (h ++ [z]) (some h.length) = z := by
  simp [read]

theorem write_append_self (h : Heap) (z v : List Int) :
    write (h ++ [z]) (some h.length) v = h ++ [v] := by
  simp [write]

theorem read_append_valid (h e : Heap) (x : Slice) (hx : ∀ a, x = some a → a < h.length) :
    read (h ++ e) x = read h x := by
  cases x with
  | none => rfl
  | some a => rw [read_some, read_some, List.getElem?_append_left (hx a rfl)]

theorem heap_sortSequentialBody_eq (h : Heap) (out : List Slice) (i : Nat) (arr : Slice)
    (hx : ∀ a, arr = some a → a < h.length) :
    sortSequentialBody (h, out) i arr
      = (h ++ [sortInts (read h arr)], out.set i (some h.length)) := by
  simp only [sortSequentialBody, alloc, copyInto, sortInPlace, read_append_self,
    write_append_self, read_append_valid h _ arr hx, goCopy_makeInts]

theorem heap_sortSequentialLoop_eq (h0 : Heap) (rest : List Slice) :
    ∀ (i : Nat) (ext : Heap) (out : List Slice), (∀ a, some a ∈ rest → a < h0.length) →
      out.length = i + rest.length →
      sortSequentialLoop i rest (h0 ++ ext, out)
        = (h0 ++ ext ++ rest.map (fun x => sortInts (read h0 x)),
            out.take i ++ (List.range rest.length).map
              (fun j => some (h0.length + ext.length + j))) := by
  induction rest with
  | nil =>
    intro i ext out _ hlen
    simp only [List.length_nil, Nat.add_zero] at hlen
    simp [sortSequentialLoop, ← hlen]
  | cons arr rest ih =>
    intro i ext out hv hlen
    simp only [List.length_cons] at hlen
    have hx : ∀ a, arr = some a → a < (h0 ++ ext).length := by
      intro a ha
      have := hv a (by rw [ha]; exact List.mem_cons_self _ _)
      simp only [List.length_append]
      omega
    have hx0 : ∀ a, arr = some a → a < h0.length := by
      intro a ha
      exact hv a (by rw [ha]; exact List.mem_cons_self _ _)
    rw [sortSequentialLoop, heap_sortSequentialBody_eq _ _ _ _ hx, read_append_valid h0 ext arr hx0,
      List.append_assoc h0 ext,
      ih (i + 1) _ _ (fun a ha => hv a (List.mem_cons_of_mem _ ha)) (by simp; omega),
      take_succ_set out i _ (by omega)]
    simp only [List.length_append, List.length_singleton, List.map_cons, List.append_assoc,
      List.singleton_append, Prod.mk.injEq, true_and, List.cons_append, List.nil_append]
    rw [List.length_cons, List.range_succ_eq_map]
    simp only [List.map_cons, List.map_map, Nat.add_zero]
    congr 2
    apply List.map_congr_left
    intro j _
    simp only [Function.comp]
    congr 1
    omega

/-- Closed form of `sortSequential` on the heap: the sorted copies are appended
to the heap in index order, and slot `i` points at the `i`-th of them. -/
theorem heap_sortSequential_eq (h : Heap) (toSort : List Slice) (hv : Valid h toSort) :
    sortSequential h toSort
      = (h ++ toSort.map (fun x => sortInts (read h x)),
          (List.range toSort.length).map (fun j => some (h.length + j))) := by
  have := heap_sortSequentialLoop_eq h toSort 0 [] (List.replicate toSort.length none) hv (by simp)
  simpa [sortSequential] using this

/-! ## Consequences of the invariant -/

theorem valid_layout (B : List (List Int)) : Valid B (layout B.length) := by
  intro a ha
  simp only [layout, List.mem_map, List.mem_range, Option.some.injEq] at ha
  obtain ⟨j, hj, rfl⟩ := ha
  exact hj

theorem map_read_layout (B : List (List Int)) : (layout B.length).map (read B) = B := by
  apply List.ext_getElem?
  intro k
  simp only [layout, List.map_map, List.getElem?_map]
  by_cases hk : k < B.length
  · rw [List.getElem?_range hk, List.getElem?_eq_getElem hk]
    simp [read, hk]
  · rw [List.getElem?_eq_none (by simpa using hk), List.getElem?_eq_none (by omega)]
    rfl

/-- The state behind a result of `sortConcurrent`. -/
theorem sortConcurrent_state {h0 : Heap} {toSort : List Slice} {sched : List Thread}
    {p : Heap × List Slice} (h : sortConcurrent h0 toSort sched = some p) :
    ∃ s, run toSort (init h0 toSort) sched = some s ∧ Reachable h0 toSort s ∧
      s.ret = some p.2 ∧ s.heap = p.1 := by
  unfold sortConcurrent at h
  split at h
  · exact Option.noConfusion h
  · next s hs =>
    cases hr : s.ret with
    | none => rw [hr] at h; exact Option.noConfusion h
    | some r =>
      rw [hr] at h
      have hp := Option.some.inj h
      subst hp
      exact ⟨s, hs, reachable_run sched Reachable.init hs, hr, rfl⟩

/-- From every reachable state in which the caller has not returned, some
schedule leads to the `return`. -/
theorem exists_completion {h0 : Heap} {toSort : List Slice} (hv : Valid h0 toSort) :
    ∀ (n : Nat) (s : State), remaining toSort s ≤ n → Reachable h0 toSort s → s.ret = none →
      ∃ sched s', run toSort s sched = some s' ∧ s'.ret.isSome = true := by
  intro n
  induction n with
  | zero =>
    intro s hn _ hret
    simp [remaining, hret] at hn
  | succ n ih =>
    intro s hn hr hret
    obtain ⟨t, s1, hs1⟩ := progress (inv_of_reachable hv hr) hret
    have hrem := remaining_step hs1
    cases hret1 : s1.ret with
    | some r =>
      exact ⟨[t], s1, by simp [run, hs1], by simp [hret1]⟩
    | none =>
      obtain ⟨sched, s', hrun, hs'⟩ := ih s1 (by omega) (Reachable.step t hr hs1) hret1
      exact ⟨t :: sched, s', by simp [run, hs1, hrun], hs'⟩

/-- Some schedule makes `sortConcurrent` return. -/
theorem heap_sortConcurrent_returns {h0 : Heap} {toSort : List Slice} (hv : Valid h0 toSort) :
    ∃ sched p, sortConcurrent h0 toSort sched = some p := by
  obtain ⟨sched, s', hrun, hs'⟩ :=
    exists_completion hv _ (init h0 toSort) (Nat.le_refl _) Reachable.init rfl
  cases hr : s'.ret with
  | none => rw [hr] at hs'; exact Bool.noConfusion hs'
  | some r => exact ⟨sched, (s'.heap, r), by simp [sortConcurrent, hrun, hr]⟩

/-- When the caller has returned, no step is left. -/
theorem remaining_returned {h0 : Heap} {toSort : List Slice} {s : State} {r : List Slice}
    (hinv : Inv h0 toSort s) (hret : s.ret = some r) : remaining toSort s = 0 := by
  obtain ⟨_, hdone⟩ := all_done hinv hret
  obtain ⟨_, hn, _⟩ := hinv.returned r hret
  have hz : (s.gs.map Goroutine.todo).sum = 0 := by
    apply List.sum_eq_zero
    intro x hx
    obtain ⟨g, hg, rfl⟩ := List.mem_map.1 hx
    obtain ⟨k, hk⟩ := List.mem_iff_getElem?.1 hg
    simp [Goroutine.todo, hdone k g hk]
  simp [remaining, hret, hn, hz]

/-- A step of a thread leaves alone every slot but the one of that thread: the
caller assigns no slot, goroutine `k` assigns only slot `k`. -/
theorem step_slots {h0 : Heap} {toSort : List Slice} {s s' : State} {t : Thread}
    (hinv : Inv h0 toSort s) (hstep : step toSort s t = some s') (j : Nat)
    (hj : t ≠ Thread.unit j) : s'.sortedArrays[j]? = s.sortedArrays[j]? := by
  cases t with
  | main =>
    simp only [step, stepMain] at hstep
    split at hstep
    · exact Option.noConfusion hstep
    split at hstep
    · rw [← Option.some.inj hstep]
    · split at hstep
      · rw [← Option.some.inj hstep]
      · exact Option.noConfusion hstep
  | unit k =>
    have hjk : k ≠ j := fun e => hj (by rw [e])
    simp only [step, stepUnit] at hstep
    cases hg : s.gs[k]? with
    | none => rw [hg] at hstep; exact Option.noConfusion hstep
    | some g =>
      rw [hg] at hstep
      simp only at hstep
      have hgk : g.i = k := (hinv.args k g hg).1
      cases hpc : g.pc <;> rw [hpc] at hstep <;> simp only [alloc] at hstep
      case sorted =>
        split at hstep
        · exact Option.noConfusion hstep
        · rw [← Option.some.inj hstep]
      case unlocked =>
        split at hstep
        · exact Option.noConfusion hstep
        · rw [← Option.some.inj hstep]
      case done => exact Option.noConfusion hstep
      case locked =>
        rw [← Option.some.inj hstep]
        simp only
        rw [hgk, List.getElem?_set_ne hjk]
      all_goals rw [← Option.some.inj hstep]

/-- The indices assigned so far are pairwise different. -/
theorem writes_snd_nodup {h0 : Heap} {toSort : List Slice} {s : State}
    (hinv : Inv h0 toSort s) : (s.writes.map Prod.snd).Nodup := by
  apply List.Nodup.map_on _ hinv.writes_nodup
  intro x hx y hy hxy
  obtain ⟨u, i⟩ := x
  obtain ⟨v, j⟩ := y
  have h1 := ((hinv.writes_mem u i).1 hx).1
  have h2 := ((hinv.writes_mem v j).1 hy).1
  simp only at hxy
  subst h1 h2 hxy
  rfl

/-- At the `return` the indices assigned are exactly `0 .. n-1`, once each. -/
theorem writes_complete {h0 : Heap} {toSort : List Slice} {s : State} {r : List Slice}
    (hinv : Inv h0 toSort s) (hret : s.ret = some r) :
    (s.writes.map Prod.snd).Perm (List.range toSort.length) := by
  obtain ⟨hlen, hdone⟩ := all_done hinv hret
  rw [List.perm_ext_iff_of_nodup (writes_snd_nodup hinv) (List.nodup_range _)]
  intro i
  simp only [List.mem_map, List.mem_range, Prod.exists, exists_eq_right]
  constructor
  · rintro ⟨u, hu⟩
    obtain ⟨_, g, hg, _⟩ := (hinv.writes_mem u i).1 hu
    have := lt_length_of_getElem? hg
    have := ((hinv.writes_mem u i).1 hu).1
    omega
  · intro hi
    have hig : i < s.gs.length := by omega
    have hg : s.gs[i]? = some s.gs[i] := List.getElem?_eq_getElem hig
    refine ⟨i, (hinv.writes_mem i i).2 ⟨rfl, _, hg, ?_⟩⟩
    have hd := hdone i _ hg
    simp only [Goroutine.wrote, hd]

/-- The arrays present at entry are untouched in every state satisfying the
invariant, and every header of the batch still denotes the same elements. -/
theorem inv_input_unchanged {h0 : Heap} {toSort : List Slice} {s : State}
    (hv : Valid h0 toSort) (hinv : Inv h0 toSort s) :
    s.heap.take h0.length = h0 ∧ toSort.map (read s.heap) = toSort.map (read h0) := by
  refine ⟨prefix_of_agree hinv.frame, ?_⟩
  apply List.map_congr_left
  intro x hx
  apply read_of_agree hinv.frame
  intro a ha
  exact hv a (ha ▸ hx)

/-- The local `sorted` of a goroutine is nil or an array allocated during the
call. -/
theorem inv_sorted_fresh {h0 : Heap} {toSort : List Slice} {s : State}
    (hinv : Inv h0 toSort s) (g : Goroutine) (hg : g ∈ s.gs) (a : Nat)
    (ha : g.sorted = some a) : h0.length ≤ a := by
  obtain ⟨k, hk⟩ := List.mem_iff_getElem?.1 hg
  have hpc : g.pc ≠ Pc.start := by
    intro hpc
    rw [hinv.fresh k g hk hpc] at ha
    exact Option.noConfusion ha
  obtain ⟨b, hb, hb1, _⟩ := hinv.priv k g hk hpc
  rw [ha] at hb
  have := Option.some.inj hb
  omega

/-- The headers returned point at arrays allocated during the call. -/
theorem returned_fresh {h0 : Heap} {toSort : List Slice} {s : State} {r : List Slice}
    (hinv : Inv h0 toSort s) (hret : s.ret = some r) (x : Slice) (hx : x ∈ r) :
    ∃ a, x = some a ∧ h0.length ≤ a := by
  obtain ⟨hlen, hdone⟩ := all_done hinv hret
  obtain ⟨hr, _, _⟩ := hinv.returned r hret
  subst hr
  obtain ⟨k, hk⟩ := List.mem_iff_getElem?.1 hx
  have hkl := lt_length_of_getElem? hk
  have hol := hinv.out_len
  have hkg : k < s.gs.length := by omega
  have hg : s.gs[k]? = some s.gs[k] := List.getElem?_eq_getElem hkg
  have hw : s.gs[k].wrote = true := by
    have hd := hdone k _ hg
    simp only [Goroutine.wrote, hd]
  obtain ⟨_, a, _, hs, ha, _⟩ := slot_value hinv hg hw
  rw [hk] at hs
  exact ⟨a, Option.some.inj hs, ha⟩

theorem heap_sortSequential_read (h : Heap) (toSort : List Slice) (hv : Valid h toSort) :
    (sortSequential h toSort).2.map (read (sortSequential h toSort).1)
      = toSort.map (fun x => sortInts (read h x)) := by
  rw [heap_sortSequential_eq h toSort hv]
  apply List.ext_getElem?
  intro k
  simp only [List.getElem?_map]
  by_cases hk : k < toSort.length
  · rw [List.getElem?_range hk, List.getElem?_eq_getElem hk]
    simp only [Option.map_some', read_some]
    rw [List.getElem?_append_right (Nat.le_add_right _ _), Nat.add_sub_cancel_left,
      List.getElem?_map, List.getElem?_eq_getElem hk]
    rfl
  · rw [List.getElem?_eq_none (by simpa using hk), List.getElem?_eq_none (by omega)]
    rfl

end Mem

/-! ## Lemmas on the value-level `sortConcurrent` -/

/-- Whatever the schedule, a result of `sortConcurrent` is the pointwise sort of
the batch. -/
theorem sortConcurrent_eq_map {B : List (List Int)} {sched : List Mem.Thread}
    {r : List (List Int)} (h : sortConcurrent B sched = some r) : r = B.map sortInts := by
  unfold sortConcurrent at h
  cases hp : Mem.sortConcurrent B (Mem.layout B.length) sched with
  | none => rw [hp] at h; exact Option.noConfusion h
  | some p =>
    rw [hp] at h
    obtain ⟨s, _, hr, hret, hheap⟩ := Mem.sortConcurrent_state hp
    have hinv := Mem.inv_of_reachable (Mem.valid_layout B) hr
    have hval := Mem.returned_value hinv hret
    rw [hheap] at hval
    have hr' : r = p.2.map (Mem.read p.1) := (Option.some.inj h).symm
    have hmm : (Mem.layout B.length).map (fun x => sortInts (Mem.read B x))
        = ((Mem.layout B.length).map (Mem.read B)).map sortInts := by
      rw [List.map_map]; rfl
    rw [hr', hval, hmm, Mem.map_read_layout]

/-- Some schedule makes the value-level `sortConcurrent` return. -/
theorem sortConcurrent_returns (B : List (List Int)) :
    ∃ sched r, sortConcurrent B sched = some r := by
  obtain ⟨sched, p, hp⟩ := Mem.heap_sortConcurrent_returns (Mem.valid_layout B)
  exact ⟨sched, p.2.map (Mem.read p.1), by simp [sortConcurrent, hp]⟩

/-! ## Lemmas on the decoder -/

theorem collect_eq_none {α : Type} (l : List (Option α)) (h : none ∈ l) : collect l = none := by
  induction l with
  | nil => simp at h
  | cons x rest ih =>
    cases x with
    | none => rfl
    | some a =>
      have hr : none ∈ rest := by simpa using h
      simp [collect, ih hr]

theorem decodeInt_eq_none (j : JSON) (h1 : j.isNull = false) (h2 : j.isInt64 = false) :
    decodeInt j = none := by
  cases j <;> simp_all [decodeInt, JSON.isNull, JSON.isInt64]

theorem decodeInts_eq_none (j : JSON) (h1 : j.isNull = false) (h2 : j.isArr = false) :
    decodeInts j = none := by
  cases j <;> simp_all [decodeInts, JSON.isNull, JSON.isArr]

theorem decodeBatch_eq_none (j : JSON) (h1 : j.isNull = false) (h2 : j.isArr = false) :
    decodeBatch j = none := by
  cases j <;> simp_all [decodeBatch, JSON.isNull, JSON.isArr]

/-! ## The claims -/

/-- C1: for every batch `B` and every index `i < len(B)`, the sequence
`sortSequential(B)[i]` is a permutation of `B[i]`: every integer occurs in it
as many times as in `B[i]`, and the two have the same length. -/
theorem C1_sortSequential_permutation (B : List (List Int)) (i : Nat) (hi : i < B.length) :
    ∃ s, (sortSequential B)[i]? = some s ∧ s.Perm B[i] ∧
      (∀ x : Int, s.count x = B[i].count x) ∧ s.length = B[i].length := by
  refine ⟨sortInts B[i], ?_, sortInts_perm _, ?_, sortInts_length _⟩
  · rw [sortSequential_eq_map, List.getElem?_map, List.getElem?_eq_getElem hi]
    rfl
  · intro x
    exact (sortInts_perm B[i]).count_eq x

theorem C1_witness :
    0 < [[3, 1, 2], [], [9, 9, 1]].length ∧
    ∃ s, (sortSequential [[3, 1, 2], [], [9, 9, 1]])[0]? = some s ∧ s.Perm [3, 1, 2] ∧
      (∀ x : Int, s.count x = [3, 1, 2].count x) ∧ s.length = [3, 1, 2].length :=
  ⟨by decide, C1_sortSequential_permutation [[3, 1, 2], [], [9, 9, 1]] 0 (by decide)⟩

/-- C2: for every batch `B` and every index `i < len(B)`, the sequence
`sortSequential(B)[i]` is non-decreasing: each element is at most its
successor.  Nothing is assumed of `B[i]`: duplicates, negative values, one
element and no element are covered. -/
theorem C2_sortSequential_nondecreasing (B : List (List Int)) (i : Nat) (hi : i < B.length) :
    ∃ s, (sortSequential B)[i]? = some s ∧
      ∀ (j : Nat) (hj : j + 1 < s.length), s[j] ≤ s[j + 1] := by
  refine ⟨sortInts B[i], ?_, ?_⟩
  · rw [sortSequential_eq_map, List.getElem?_map, List.getElem?_eq_getElem hi]
    rfl
  · intro j hj
    have hs := sortInts_sorted B[i]
    exact List.Sorted.rel_get_of_lt hs
      (show (⟨j, by omega⟩ : Fin (sortInts B[i]).length) < ⟨j + 1, hj⟩ from Nat.lt_succ_self j)

theorem C2_witness :
    1 < [[], [2, -7, 2, 0], [5]].length ∧
    ∃ s, (sortSequential [[], [2, -7, 2, 0], [5]])[1]? = some s ∧
      ∀ (j : Nat) (hj : j + 1 < s.length), s[j] ≤ s[j + 1] :=
  ⟨by decide, C2_sortSequential_nondecreasing [[], [2, -7, 2, 0], [5]] 1 (by decide)⟩

/-- C3: for every batch `B`, `sortConcurrent(B)` returns the batch
`sortSequential(B)`, for every order in which the goroutines run and assign
their slots: every schedule under which the call returns gives that batch;
while the caller has not returned some thread can step; no schedule is longer
than `8 * len(B) + 1` steps and one of that length has returned; so every
execution ends with the `return`, and at least one exists. -/
theorem C3_sequential_eq_concurrent (B : List (List Int)) :
    (∀ (sched : List Mem.Thread) (r : List (List Int)),
        sortConcurrent B sched = some r → r = sortSequential B) ∧
    (∀ (sched : List Mem.Thread) (s : Mem.State),
        Mem.run (Mem.layout B.length) (Mem.init B (Mem.layout B.length)) sched = some s →
        (s.ret = none → ∃ t s', Mem.step (Mem.layout B.length) s t = some s') ∧
        sched.length ≤ 8 * B.length + 1 ∧
        (sched.length = 8 * B.length + 1 → s.ret.isSome = true)) ∧
    (∃ sched, sortConcurrent B sched = some (sortSequential B)) := by
  refine ⟨?_, ?_, ?_⟩
  · intro sched r h
    rw [sortConcurrent_eq_map h, sortSequential_eq_map]
  · intro sched s hrun
    have hr := Mem.reachable_run sched Mem.Reachable.init hrun
    have hinv := Mem.inv_of_reachable (Mem.valid_layout B) hr
    have hrem := Mem.remaining_run sched hrun
    have hl : (Mem.layout B.length).length = B.length := by simp [Mem.layout]
    rw [Mem.remaining_init, hl] at hrem
    refine ⟨fun hret => Mem.progress hinv hret, by omega, ?_⟩
    intro hlen
    cases hret : s.ret with
    | some r => rfl
    | none =>
      have : Mem.remaining (Mem.layout B.length) s = 0 := by omega
      simp [Mem.remaining, hret] at this
  · obtain ⟨sched, r, h⟩ := sortConcurrent_returns B
    refine ⟨sched, ?_⟩
    rw [h, sortConcurrent_eq_map h, sortSequential_eq_map]

theorem C3_witness :
    sortConcurrent [[3, 1, 2], [], [9, 9, 1]] (schedAfter 3 [2, 0, 1])
        = some [[1, 2, 3], [], [1, 9, 9]] ∧
    [[1, 2, 3], [], [1, 9, 9]] = sortSequential [[3, 1, 2], [], [9, 9, 1]] :=
  ⟨by decide,
   (C3_sequential_eq_concurrent [[3, 1, 2], [], [9, 9, 1]]).1 (schedAfter 3 [2, 0, 1])
     [[1, 2, 3], [], [1, 9, 9]] (by decide)⟩

/-- C4: index alignment.  For every batch `B` the output of `sortSequential`
has `len(B)` sequences and its sequence at index `i` is the one sequence
`sortSequential` returns on the one-element batch `[B[i]]`; the same holds of
every result of `sortConcurrent`, whatever the schedules of the two calls, and
`sortConcurrent` has a result; both sorters map the empty batch to the empty
batch. -/
theorem C4_index_alignment (B : List (List Int)) :
    ((sortSequential B).length = B.length ∧
      ∀ (i : Nat) (hi : i < B.length),
        ∃ s, (sortSequential B)[i]? = some s ∧ sortSequential [B[i]] = [s]) ∧
    (∀ (sched : List Mem.Thread) (r : List (List Int)), sortConcurrent B sched = some r →
      r.length = B.length ∧
      ∀ (i : Nat) (hi : i < B.length),
        ∃ s, r[i]? = some s ∧
          (∀ (sched1 : List Mem.Thread) (r1 : List (List Int)),
            sortConcurrent [B[i]] sched1 = some r1 → r1 = [s]) ∧
          ∃ sched1, sortConcurrent [B[i]] sched1 = some [s]) ∧
    (∃ sched r, sortConcurrent B sched = some r) ∧
    sortSequential [] = [] ∧
    (∀ (sched : List Mem.Thread) (r : List (List Int)), sortConcurrent [] sched = some r → r = []) ∧
    sortConcurrent [] [Mem.Thread.main] = some [] := by
  refine ⟨⟨?_, ?_⟩, ?_, sortConcurrent_returns B, rfl, ?_, rfl⟩
  · rw [sortSequential_eq_map, List.length_map]
  · intro i hi
    refine ⟨sortInts B[i], ?_, ?_⟩
    · rw [sortSequential_eq_map, List.getElem?_map, List.getElem?_eq_getElem hi]
      rfl
    · rw [sortSequential_eq_map]
      rfl
  · intro sched r h
    have hr := sortConcurrent_eq_map h
    subst hr
    refine ⟨List.length_map _ _, ?_⟩
    intro i hi
    refine ⟨sortInts B[i], ?_, ?_, ?_⟩
    · rw [List.getElem?_map, List.getElem?_eq_getElem hi]
      rfl
    · intro sched1 r1 h1
      rw [sortConcurrent_eq_map h1]
      rfl
    · obtain ⟨sched1, r1, h1⟩ := sortConcurrent_returns [B[i]]
      refine ⟨sched1, ?_⟩
      rw [h1, sortConcurrent_eq_map h1]
      rfl
  · intro sched r h
    rw [sortConcurrent_eq_map h]
    rfl

theorem C4_witness :
    sortConcurrent [[3, 1, 2], [], [9, 9, 1]] (schedAfter 3 [1, 2, 0])
        = some [[1, 2, 3], [], [1, 9, 9]] ∧
    [[1, 2, 3], [], [1, 9, 9]].length = [[3, 1, 2], [], [9, 9, 1]].length :=
  ⟨by decide,
   ((C4_index_alignment [[3, 1, 2], [], [9, 9, 1]]).2.1 (schedAfter 3 [1, 2, 0])
     [[1, 2, 3], [], [1, 9, 9]] (by decide)).1⟩

/-- C5: non-mutation.  For every heap and every batch of slices into it, after
`sortSequential` or `sortConcurrent` (under any schedule) has returned, the
arrays that were in the heap at entry are unchanged and every input slice
denotes the same elements as before; the slices returned point at arrays
allocated during the call, which are the only ones written.  For
`sortConcurrent` the input is unchanged in every intermediate state as well,
and the slice each goroutine copies into and sorts is one it has allocated. -/
theorem C5_non_mutation (h : Mem.Heap) (toSort : List Mem.Slice) (hv : Mem.Valid h toSort) :
    ((Mem.sortSequential h toSort).1.take h.length = h ∧
      toSort.map (Mem.read (Mem.sortSequential h toSort).1) = toSort.map (Mem.read h) ∧
      (∀ x ∈ (Mem.sortSequential h toSort).2, ∃ a, x = some a ∧ h.length ≤ a) ∧
      (Mem.sortSequential h toSort).2.map (Mem.read (Mem.sortSequential h toSort).1)
        = sortSequential (toSort.map (Mem.read h))) ∧
    (∀ (sched : List Mem.Thread) (p : Mem.Heap × List Mem.Slice),
      Mem.sortConcurrent h toSort sched = some p →
      p.1.take h.length = h ∧ toSort.map (Mem.read p.1) = toSort.map (Mem.read h) ∧
      (∀ x ∈ p.2, ∃ a, x = some a ∧ h.length ≤ a) ∧
      p.2.map (Mem.read p.1) = sortSequential (toSort.map (Mem.read h))) ∧
    (∀ s : Mem.State, Mem.Reachable h toSort s →
      s.heap.take h.length = h ∧ toSort.map (Mem.read s.heap) = toSort.map (Mem.read h) ∧
      ∀ g ∈ s.gs, ∀ a : Nat, g.sorted = some a → h.length ≤ a) ∧
    (∃ sched p, Mem.sortConcurrent h toSort sched = some p) := by
  refine ⟨⟨?_, ?_, ?_, ?_⟩, ?_, ?_, Mem.heap_sortConcurrent_returns hv⟩
  · rw [Mem.heap_sortSequential_eq h toSort hv]
    simp
  · rw [Mem.heap_sortSequential_eq h toSort hv]
    apply List.map_congr_left
    intro x hx
    exact Mem.read_append_valid h _ x (fun a ha => hv a (ha ▸ hx))
  · rw [Mem.heap_sortSequential_eq h toSort hv]
    intro x hx
    simp only [List.mem_map, List.mem_range] at hx
    obtain ⟨j, _, rfl⟩ := hx
    exact ⟨h.length + j, rfl, Nat.le_add_right _ _⟩
  · rw [Mem.heap_sortSequential_read h toSort hv, sortSequential_eq_map, List.map_map]
    rfl
  · intro sched p hp
    obtain ⟨s, _, hr, hret, hheap⟩ := Mem.sortConcurrent_state hp
    have hinv := Mem.inv_of_reachable hv hr
    have hin := Mem.inv_input_unchanged hv hinv
    rw [hheap] at hin
    refine ⟨hin.1, hin.2, Mem.returned_fresh hinv hret, ?_⟩
    have hval := Mem.returned_value hinv hret
    rw [hheap] at hval
    rw [hval, sortSequential_eq_map, List.map_map]
    rfl
  · intro s hr
    have hinv := Mem.inv_of_reachable hv hr
    have hin := Mem.inv_input_unchanged hv hinv
    exact ⟨hin.1, hin.2, Mem.inv_sorted_fresh hinv⟩

theorem C5_witness :
    Mem.Valid [[3, 1, 2], [9, 9, 1]] [some 0, none, some 1, some 0] ∧
    (Mem.sortSequential [[3, 1, 2], [9, 9, 1]] [some 0, none, some 1, some 0]).1.take 2
      = [[3, 1, 2], [9, 9, 1]] :=
  ⟨by decide,
   (C5_non_mutation [[3, 1, 2], [9, 9, 1]] [some 0, none, some 1, some 0] (by decide)).1.1⟩

/-- C6: on the batch `[[3,1,2],[],[9,9,1]]` both sorters return
`[[1,2,3],[],[1,9,9]]`; likewise `[]` gives `[]`, `[[]]` gives `[[]]` and
`[[5]]` gives `[[5]]`.  For `sortConcurrent` this is the result under every
schedule under which the call returns, and such a schedule is exhibited. -/
theorem C6_examples :
    (sortSequential [[3, 1, 2], [], [9, 9, 1]] = [[1, 2, 3], [], [1, 9, 9]] ∧
      sortSequential [] = [] ∧ sortSequential [[]] = [[]] ∧ sortSequential [[5]] = [[5]]) ∧
    (∀ (sched : List Mem.Thread) (r : List (List Int)),
      (sortConcurrent [[3, 1, 2], [], [9, 9, 1]] sched = some r → r = [[1, 2, 3], [], [1, 9, 9]]) ∧
      (sortConcurrent [] sched = some r → r = []) ∧
      (sortConcurrent [[]] sched = some r → r = [[]]) ∧
      (sortConcurrent [[5]] sched = some r → r = [[5]])) ∧
    (sortConcurrent [[3, 1, 2], [], [9, 9, 1]] (schedAfter 3 [0, 1, 2])
        = some [[1, 2, 3], [], [1, 9, 9]] ∧
      sortConcurrent [] (schedAfter 0 []) = some [] ∧
      sortConcurrent [[]] (schedAfter 1 [0]) = some [[]] ∧
      sortConcurrent [[5]] (schedAfter 1 [0]) = some [[5]]) := by
  refine ⟨by decide, ?_, by decide⟩
  intro sched r
  refine ⟨?_, ?_, ?_, ?_⟩ <;> intro h <;> rw [sortConcurrent_eq_map h] <;> decide

theorem C6_witness :
    sortConcurrent [[3, 1, 2], [], [9, 9, 1]] (schedAfter 3 [2, 1, 0])
        = some [[1, 2, 3], [], [1, 9, 9]] ∧
    [[1, 2, 3], [], [1, 9, 9]] = [[1, 2, 3], [], [(1 : Int), 9, 9]] :=
  ⟨by decide, (C6_examples.2.1 (schedAfter 3 [2, 1, 0]) [[1, 2, 3], [], [1, 9, 9]]).1 (by decide)⟩

/-- C7: the slot-assignment invariant of `sortConcurrent`.  In every state `s`
the call reaches on a heap `h` and a batch `toSort` of `n` slices:
one goroutine has been started per index the loop has passed, goroutine `k`
with the arguments `(k, toSort[k])`; a step of a thread leaves every slot
alone but, for goroutine `k`, slot `k`; every assignment made so far was made
by goroutine `u` to slot `u`, and no slot was assigned twice; every slot
assigned holds the sorted copy of the input of its index; and when the caller
has returned it has returned the container, `n` goroutines were started, all
have finished, the slots assigned are `0 .. n-1`, once each, and the container
holds the sorted copy of every input. -/
theorem C7_slot_assignment (h : Mem.Heap) (toSort : List Mem.Slice) (hv : Mem.Valid h toSort)
    (sched : List Mem.Thread) (s : Mem.State)
    (hrun : Mem.run toSort (Mem.init h toSort) sched = some s) :
    (s.gs.length = s.next ∧ s.next ≤ toSort.length ∧
      ∀ (k : Nat) (g : Mem.Goroutine), s.gs[k]? = some g → g.i = k ∧ toSort[k]? = some g.arr) ∧
    (∀ (t : Mem.Thread) (s' : Mem.State), Mem.step toSort s t = some s' →
      ∀ j : Nat, t ≠ Mem.Thread.unit j → s'.sortedArrays[j]? = s.sortedArrays[j]?) ∧
    ((∀ u i : Nat, (u, i) ∈ s.writes → u = i ∧ u < s.gs.length) ∧
      (s.writes.map Prod.snd).Nodup) ∧
    (∀ u i : Nat, (u, i) ∈ s.writes →
      ∃ x a, toSort[i]? = some x ∧ s.sortedArrays[i]? = some (some a) ∧
        Mem.read s.heap (some a) = sortInts (Mem.read h x)) ∧
    (∀ r : List Mem.Slice, s.ret = some r →
      r = s.sortedArrays ∧ s.gs.length = toSort.length ∧ (∀ g ∈ s.gs, g.pc = Mem.Pc.done) ∧
      (s.writes.map Prod.snd).Perm (List.range toSort.length) ∧
      r.map (Mem.read s.heap) = toSort.map (fun x => sortInts (Mem.read h x))) := by
  have hr := Mem.reachable_run sched Mem.Reachable.init hrun
  have hinv := Mem.inv_of_reachable hv hr
  refine ⟨⟨hinv.gs_len, hinv.next_le, hinv.args⟩, ?_, ⟨?_, Mem.writes_snd_nodup hinv⟩, ?_, ?_⟩
  · intro t s' hstep j hj
    exact Mem.step_slots hinv hstep j hj
  · intro u i hui
    obtain ⟨h1, g, hg, _⟩ := (hinv.writes_mem u i).1 hui
    exact ⟨h1, Mem.lt_length_of_getElem? hg⟩
  · intro u i hui
    obtain ⟨h1, g, hg, hw⟩ := (hinv.writes_mem u i).1 hui
    subst h1
    obtain ⟨x, a, hx, hs, _, hrd⟩ := Mem.slot_value hinv hg hw
    exact ⟨x, a, hx, hs, hrd⟩
  · intro r hret
    obtain ⟨hlen, hdone⟩ := Mem.all_done hinv hret
    refine ⟨(hinv.returned r hret).1, hlen, ?_, Mem.writes_complete hinv hret,
      Mem.returned_value hinv hret⟩
    intro g hg
    obtain ⟨k, hk⟩ := List.mem_iff_getElem?.1 hg
    exact hdone k g hk

theorem C7_witness :
    Mem.Valid [[2, 1]] [some 0, some 0] ∧
    Mem.run [some 0, some 0] (Mem.init [[2, 1]] [some 0, some 0])
        [Mem.Thread.main, Mem.Thread.unit 0, Mem.Thread.unit 0, Mem.Thread.main,
         Mem.Thread.unit 0, Mem.Thread.unit 1, Mem.Thread.unit 0, Mem.Thread.unit 0]
      = some
        { heap := [[2, 1], [1, 2], [0, 0]], sortedArrays := [some 1, none], wg := 2, mu := true,
          next := 2,
          gs := [{ i := 0, arr := some 0, sorted := some 1, pc := Mem.Pc.assigned },
                 { i := 1, arr := some 0, sorted := some 2, pc := Mem.Pc.allocated }],
          ret := none, writes := [(0, 0)] } ∧
    ([(0, 0)].map Prod.snd : List Nat).Nodup :=
  ⟨by decide, by decide,
   (C7_slot_assignment [[2, 1]] [some 0, some 0] (by decide)
      [Mem.Thread.main, Mem.Thread.unit 0, Mem.Thread.unit 0, Mem.Thread.main,
       Mem.Thread.unit 0, Mem.Thread.unit 1, Mem.Thread.unit 0, Mem.Thread.unit 0]
      { heap := [[2, 1], [1, 2], [0, 0]], sortedArrays := [some 1, none], wg := 2, mu := true,
        next := 2,
        gs := [{ i := 0, arr := some 0, sorted := some 1, pc := Mem.Pc.assigned },
               { i := 1, arr := some 0, sorted := some 2, pc := Mem.Pc.allocated }],
        ret := none, writes := [(0, 0)] }
      (by decide)).2.2.1.2⟩

/-- C8: for both handlers and every request body, the response has status 400
with the plain-text body `Invalid JSON payload` exactly when decoding the body
fails, and then no call to the sorter is made and no sorted output is written;
when decoding gives the batch `B` the response is 200 with `sorted_arrays` equal
to `sortSequential(B)` (for `processConcurrentHandler`: to the result of
`sortConcurrent(B)`, which is `sortSequential(B)` and exists), after one call of
the sorter on `B`; the body `to_sort: []` gives `sorted_arrays: []`. -/
theorem C8_handlers (body : Body) (elapsed : Int) (sched : List Mem.Thread) :
    ((jsonDecode body = none →
        processSingleHandler body elapsed =
          { response := { status := 400, contentType := "text/plain; charset=utf-8",
                          body := ResponseBody.text "Invalid JSON payload\n" },
            sorterCalls := [] }) ∧
      (∀ B : List (List Int), jsonDecode body = some { ToSort := B } →
        processSingleHandler body elapsed =
          { response := { status := 200, contentType := "application/json",
                          body := ResponseBody.json
                            { SortedArrays := sortSequential B, TimeNs := elapsed } },
            sorterCalls := [B] }) ∧
      ((processSingleHandler body elapsed).response.status = 400 ↔ jsonDecode body = none)) ∧
    ((jsonDecode body = none →
        processConcurrentHandler body sched elapsed = some
          { response := { status := 400, contentType := "text/plain; charset=utf-8",
                          body := ResponseBody.text "Invalid JSON payload\n" },
            sorterCalls := [] }) ∧
      (∀ B : List (List Int), jsonDecode body = some { ToSort := B } →
        (∀ out : Outcome, processConcurrentHandler body sched elapsed = some out →
          out = { response := { status := 200, contentType := "application/json",
                                body := ResponseBody.json
                                  { SortedArrays := sortSequential B, TimeNs := elapsed } },
                  sorterCalls := [B] }) ∧
        (processConcurrentHandler body sched elapsed = none ↔ sortConcurrent B sched = none) ∧
        ∃ sched1 out, processConcurrentHandler body sched1 elapsed = some out) ∧
      (∀ out : Outcome, processConcurrentHandler body sched elapsed = some out →
        (out.response.status = 400 ↔ jsonDecode body = none))) ∧
    (jsonDecode (Body.value (JSON.obj (some (JSON.arr [])))) = some { ToSort := [] } ∧
      (processSingleHandler (Body.value (JSON.obj (some (JSON.arr [])))) elapsed).response.body
        = ResponseBody.json { SortedArrays := [], TimeNs := elapsed } ∧
      processConcurrentHandler (Body.value (JSON.obj (some (JSON.arr []))))
          [Mem.Thread.main] elapsed
        = some { response := { status := 200, contentType := "application/json",
                               body := ResponseBody.json
                                 { SortedArrays := [], TimeNs := elapsed } },
                 sorterCalls := [[]] }) := by
  refine ⟨⟨?_, ?_, ?_⟩, ⟨?_, ?_, ?_⟩, ⟨rfl, rfl, rfl⟩⟩
  · intro h
    simp only [processSingleHandler, h]
    rfl
  · intro B h
    simp only [processSingleHandler, h]
    rfl
  · cases h : jsonDecode body with
    | none => simp [processSingleHandler, h, httpError]
    | some p => simp [processSingleHandler, h, writeJSON]
  · intro h
    simp only [processConcurrentHandler, h]
    rfl
  · intro B h
    refine ⟨?_, ?_, ?_⟩
    · intro out hout
      simp only [processConcurrentHandler, h] at hout
      cases hs : sortConcurrent B sched with
      | none => rw [hs] at hout; exact Option.noConfusion hout
      | some r =>
        rw [hs] at hout
        rw [← Option.some.inj hout, sortConcurrent_eq_map hs, sortSequential_eq_map]
        rfl
    · simp only [processConcurrentHandler, h]
      cases hs : sortConcurrent B sched <;> simp
    · obtain ⟨sched1, r, hs⟩ := sortConcurrent_returns B
      refine ⟨sched1, { response := writeJSON { SortedArrays := r, TimeNs := elapsed },
                        sorterCalls := [B] }, ?_⟩
      simp only [processConcurrentHandler, h, hs]
  · intro out hout
    cases h : jsonDecode body with
    | none =>
      simp only [processConcurrentHandler, h] at hout
      rw [← Option.some.inj hout]
      simp [httpError]
    | some p =>
      simp only [processConcurrentHandler, h] at hout
      cases hs : sortConcurrent p.ToSort sched with
      | none => rw [hs] at hout; exact Option.noConfusion hout
      | some r =>
        rw [hs] at hout
        rw [← Option.some.inj hout]
        simp [writeJSON]

theorem C8_witness :
    jsonDecode Body.invalid = none ∧
    processSingleHandler Body.invalid 7 =
      { response := { status := 400, contentType := "text/plain; charset=utf-8",
                      body := ResponseBody.text "Invalid JSON payload\n" },
        sorterCalls := [] } :=
  ⟨rfl, (C8_handlers Body.invalid 7 []).1.1 rfl⟩

/-- C9 as stated fails: an object without a `to_sort` field, an object whose
`to_sort` is `null`, and a batch in which a sequence is `null` are decoded
without error; both handlers call their sorter and answer 200 with sorted
output. -/
theorem C9_counterexample :
    (processSingleHandler (Body.value (JSON.obj none)) 0).response.status = 200 ∧
    (processSingleHandler (Body.value (JSON.obj none)) 0).response.status ≠ 400 ∧
    (processSingleHandler (Body.value (JSON.obj none)) 0).sorterCalls = [[]] ∧
    (processSingleHandler (Body.value (JSON.obj (some JSON.null))) 0).response.status = 200 ∧
    processSingleHandler (Body.value (JSON.obj (some (JSON.arr [JSON.null])))) 0 =
      { response := { status := 200, contentType := "application/json",
                      body := ResponseBody.json { SortedArrays := [[]], TimeNs := 0 } },
        sorterCalls := [[[]]] } ∧
    processConcurrentHandler (Body.value (JSON.obj none)) [Mem.Thread.main] 0 =
      some { response := { status := 200, contentType := "application/json",
                           body := ResponseBody.json { SortedArrays := [], TimeNs := 0 } },
             sorterCalls := [[]] } := by
  decide

/-- C9, amended: whenever the decoder returns an error on the request body,
both handlers answer 400 with the plain-text error, make no call to their
sorter and write no sorted output.  The decoder returns an error when no
complete JSON value can be read from the body, when the value is neither an
object nor `null`, when `to_sort` is neither an array nor `null`, when a
sequence is neither an array nor `null`, and when an element is neither an
integer literal within 64 bits nor `null`.  An object without `to_sort`, an
object whose `to_sort` is `null` and a sequence given as `null` are decoded
without error, to the empty batch, the empty batch and the empty sequence, and
are answered with 200 and the sorted batch. -/
theorem C9_decode_failure :
    (∀ (body : Body) (elapsed : Int) (sched : List Mem.Thread), jsonDecode body = none →
      processSingleHandler body elapsed =
        { response := { status := 400, contentType := "text/plain; charset=utf-8",
                        body := ResponseBody.text "Invalid JSON payload\n" },
          sorterCalls := [] } ∧
      processConcurrentHandler body sched elapsed = some
        { response := { status := 400, contentType := "text/plain; charset=utf-8",
                        body := ResponseBody.text "Invalid JSON payload\n" },
          sorterCalls := [] }) ∧
    (jsonDecode Body.invalid = none ∧
      (∀ j : JSON, j.isNull = false → j.isObj = false → jsonDecode (Body.value j) = none) ∧
      (∀ j : JSON, j.isNull = false → j.isArr = false →
        jsonDecode (Body.value (JSON.obj (some j))) = none) ∧
      (∀ (seqs : List JSON) (j : JSON), j ∈ seqs → j.isNull = false → j.isArr = false →
        jsonDecode (Body.value (JSON.obj (some (JSON.arr seqs)))) = none) ∧
      (∀ (seqs elems : List JSON) (j : JSON), JSON.arr elems ∈ seqs → j ∈ elems →
        j.isNull = false → j.isInt64 = false →
        jsonDecode (Body.value (JSON.obj (some (JSON.arr seqs)))) = none)) ∧
    (∀ elapsed : Int,
      processSingleHandler (Body.value (JSON.obj none)) elapsed =
        { response := { status := 200, contentType := "application/json",
                        body := ResponseBody.json { SortedArrays := [], TimeNs := elapsed } },
          sorterCalls := [[]] } ∧
      processSingleHandler (Body.value (JSON.obj (some JSON.null))) elapsed =
        { response := { status := 200, contentType := "application/json",
                        body := ResponseBody.json { SortedArrays := [], TimeNs := elapsed } },
          sorterCalls := [[]] } ∧
      processSingleHandler (Body.value (JSON.obj (some (JSON.arr [JSON.null])))) elapsed =
        { response := { status := 200, contentType := "application/json",
                        body := ResponseBody.json { SortedArrays := [[]], TimeNs := elapsed } },
          sorterCalls := [[[]]] } ∧
      processConcurrentHandler (Body.value (JSON.obj none)) [Mem.Thread.main] elapsed = some
        { response := { status := 200, contentType := "application/json",
                        body := ResponseBody.json { SortedArrays := [], TimeNs := elapsed } },
          sorterCalls := [[]] } ∧
      processConcurrentHandler (Body.value (JSON.obj (some JSON.null))) [Mem.Thread.main] elapsed
        = some
        { response := { status := 200, contentType := "application/json",
                        body := ResponseBody.json { SortedArrays := [], TimeNs := elapsed } },
          sorterCalls := [[]] } ∧
      processConcurrentHandler (Body.value (JSON.obj (some (JSON.arr [JSON.null]))))
          (schedAfter 1 [0]) elapsed = some
        { response := { status := 200, contentType := "application/json",
                        body := ResponseBody.json { SortedArrays := [[]], TimeNs := elapsed } },
          sorterCalls := [[[]]] }) := by
  refine ⟨?_, ⟨rfl, ?_, ?_, ?_, ?_⟩, ?_⟩
  · intro body elapsed sched h
    constructor
    · simp only [processSingleHandler, h]
      rfl
    · simp only [processConcurrentHandler, h]
      rfl
  · intro j h1 h2
    cases j <;> simp_all [jsonDecode, decodePayload, JSON.isNull, JSON.isObj]
  · intro j h1 h2
    simp [jsonDecode, decodePayload, decodeBatch_eq_none j h1 h2]
  · intro seqs j hj h1 h2
    have hc : collect (seqs.map decodeInts) = none := by
      apply collect_eq_none
      rw [← decodeInts_eq_none j h1 h2]
      exact List.mem_map_of_mem _ hj
    simp [jsonDecode, decodePayload, decodeBatch, hc]
  · intro seqs elems j hs hj h1 h2
    have hc1 : collect (elems.map decodeInt) = none := by
      apply collect_eq_none
      rw [← decodeInt_eq_none j h1 h2]
      exact List.mem_map_of_mem _ hj
    have hc : collect (seqs.map decodeInts) = none := by
      apply collect_eq_none
      have : decodeInts (JSON.arr elems) = none := by simp [decodeInts, hc1]
      rw [← this]
      exact List.mem_map_of_mem _ hs
    simp [jsonDecode, decodePayload, decodeBatch, hc]
  · intro elapsed
    exact ⟨rfl, rfl, rfl, rfl, rfl, rfl⟩

theorem C9_witness :
    jsonDecode (Body.value (JSON.obj (some (JSON.arr [JSON.arr [JSON.int 1, JSON.str "2"]]))))
      = none ∧
    processSingleHandler
        (Body.value (JSON.obj (some (JSON.arr [JSON.arr [JSON.int 1, JSON.str "2"]])))) 3 =
      { response := { status := 400, contentType := "text/plain; charset=utf-8",
                      body := ResponseBody.text "Invalid JSON payload\n" },
        sorterCalls := [] } :=
  ⟨by decide,
   (C9_decode_failure.1
      (Body.value (JSON.obj (some (JSON.arr [JSON.arr [JSON.int 1, JSON.str "2"]])))) 3 []
      (by decide)).1⟩

/-- C10: canonical form.  Two batches of the same length whose sequences are
permutations of one another index by index have the same image under
`sortSequential`; and `sortSequential` is idempotent. -/
theorem C10_canonical_form :
    (∀ B B1 : List (List Int), B.length = B1.length →
      (∀ i : Nat, i < B.length → (B.getD i []).Perm (B1.getD i [])) →
      sortSequential B = sortSequential B1) ∧
    (∀ B : List (List Int), sortSequential (sortSequential B) = sortSequential B) := by
  constructor
  · intro B B1 hlen hperm
    rw [sortSequential_eq_map, sortSequential_eq_map]
    apply List.ext_getElem
    · simp [hlen]
    · intro i h h1
      have hi : i < B.length := by simpa using h
      have hi1 : i < B1.length := by simpa using h1
      have hp := hperm i hi
      rw [List.getD_eq_getElem B [] hi, List.getD_eq_getElem B1 [] hi1] at hp
      simp only [List.getElem_map]
      exact sortInts_congr hp
  · intro B
    rw [sortSequential_eq_map (sortSequential B), sortSequential_eq_map B, List.map_map]
    apply List.map_congr_left
    intro x _
    exact sortInts_idem x

theorem C10_witness :
    [[3, 1, 2], [5, 5, -1]].length = [[2, 3, 1], [-1, 5, 5]].length ∧
    sortSequential [[3, 1, 2], [5, 5, -1]] = sortSequential [[2, 3, 1], [-1, 5, 5]] :=
  ⟨rfl,
   C10_canonical_form.1 [[3, 1, 2], [5, 5, -1]] [[2, 3, 1], [-1, 5, 5]] rfl
     (by
       intro i hi
       have hi2 : i < 2 := hi
       clear hi
       interval_cases i <;> decide)⟩

end SortingServer
